import Mathlib

/-!
Verification development for the MIDI player's parsing and scheduling core
(`src/midi/track_data.rs`, `src/midi/loader.rs`, `src/midi/player.rs`).

Modeling conventions:
* bytes are `Nat`s reduced mod 256 at every read site (mirroring `u8`);
* `u32`/`u64` arithmetic is `Nat` with explicit `% 2 ^ 32` / `% 2 ^ 64`
  at the operations where Rust wraps or truncates;
* `i64` values are `Int` with explicit two's-complement wrapping (`wrap64`);
* the `f64` tick→time multiplier is modeled by exact rationals `ℚ`
  (`as i64` casts become truncation toward zero, saturated to the i64 range);
* fallible operations (fuelled loops, file loading) return `Option`/`Except`.
-/

namespace MidiVerify

/-- Mirror of `TrackData` (src/midi/track_data.rs, lines 1-10).  `data` is the
track chunk's byte payload, `offset` the read cursor, `length` the logical
length, `message` the current packed message (`u32`), `last_status` the running
status byte. -/
structure TrackData where
  data : List Nat
  long_msg : List Nat
  tick : Nat
  offset : Nat
  length : Nat
  message : Nat
  temp : Nat
  last_status : Option Nat
deriving Repr, DecidableEq

/-- Loop body of `TrackData::decode_variable_length` (track_data.rs 28-39):
reads base-128 big-endian bytes while the continuation (high) bit is set.
`result << 7 | (byte & 0x7F)` on `u32` drops shifted-out bits, hence the
explicit `% 2 ^ 32`.  The loop advances `offset` by one per iteration and
stops as soon as `offset` reaches `length`, so running it on the structural
fuel `length - offset` is exact (the fuel can never be exhausted first). -/
def decode_variable_length_aux : Nat → TrackData → Nat → Nat × TrackData
  | 0, td, result => (result, td)
  | fuel + 1, td, result =>
    if td.offset < td.length then
      let byte := td.data.getD td.offset 0 % 256
      let result' := (result * 128 + byte % 128) % 2 ^ 32
      let td' := { td with offset := td.offset + 1 }
      if 128 ≤ byte then decode_variable_length_aux fuel td' result'
      else (result', td')
    else (result, td)

/-- `TrackData::decode_variable_length` (track_data.rs 28-39). -/
def decode_variable_length (td : TrackData) : Nat × TrackData :=
  decode_variable_length_aux (td.length - td.offset) td 0

/-- `TrackData::update_tick` (track_data.rs 42-46): wrapping add of the next
variable-length delta onto the absolute tick (`u64`). -/
def update_tick (td : TrackData) : TrackData :=
  let r := decode_variable_length td
  { r.2 with tick := (r.2.tick + r.1) % 2 ^ 64 }

/-- `TrackData::update_command` (track_data.rs 50-70): read a new status byte if
the next byte has its high bit set, else reuse the running status, else
substitute the sentinel message 0. -/
def update_command (td : TrackData) : TrackData :=
  if td.length ≤ td.offset then td
  else
    let byte := td.data.getD td.offset 0 % 256
    if 128 ≤ byte then
      { td with offset := td.offset + 1, message := byte, last_status := some byte }
    else
      match td.last_status with
      | some status => { td with message := status }
      | none => { td with message := 0 }

/-- `TrackData::update_message` (track_data.rs 73-125): read the data bytes for
the current status class and fold them into `message`.  The two data bytes are
disjoint bit fields (`<< 8`, `<< 16`), so Rust's `|` on them is addition; the
final `message |= temp` is kept as `Nat.lor` exactly as in the source. -/
def update_message (td : TrackData) : TrackData :=
  if td.length ≤ td.offset then td
  else
    let td0 := { td with temp := 0 }
    let msg_type := td0.message % 256
    let td1 :=
      if msg_type ≤ 0xBF ∨ (0xE0 ≤ msg_type ∧ msg_type ≤ 0xEF) then
        if td0.offset + 2 ≤ td0.length then
          { td0 with
            temp := (td0.data.getD td0.offset 0 % 256) * 2 ^ 8
                    + (td0.data.getD (td0.offset + 1) 0 % 256) * 2 ^ 16,
            offset := td0.offset + 2 }
        else td0
      else if 0xC0 ≤ msg_type ∧ msg_type ≤ 0xDF then
        if td0.offset < td0.length then
          { td0 with temp := (td0.data.getD td0.offset 0 % 256) * 2 ^ 8,
                     offset := td0.offset + 1 }
        else td0
      else if msg_type = 0xF0 ∨ msg_type = 0xFF then
        let tda :=
          if msg_type = 0xFF then
            if td0.offset < td0.length then
              { td0 with temp := (td0.data.getD td0.offset 0 % 256) * 2 ^ 8,
                         offset := td0.offset + 1 }
            else td0
          else { td0 with temp := 0 }
        let r := decode_variable_length tda
        let tdb := r.2
        let stop := min (tdb.offset + r.1) tdb.length
        { tdb with
          long_msg := ((tdb.data.drop tdb.offset).take (stop - tdb.offset)).map (· % 256),
          offset := stop }
      else td0
    { td1 with message := td1.message ||| td1.temp }

/-- `TrackData::process_meta_event` (track_data.rs 129-155): on a tempo meta
event (type 0x51, at least 3 payload bytes) set the new µs-per-quarter-note
and the floored multiplier; on end-of-track (0x2F) clear the track. -/
def process_meta_event (td : TrackData) (multiplier : ℚ) (bpm : Nat) (time_div : Nat) :
    TrackData × ℚ × Nat :=
  let meta_type := td.message / 2 ^ 8 % 256
  if meta_type = 0x51 ∧ 3 ≤ td.long_msg.length then
    let t : Nat := (td.long_msg.getD 0 0 % 256) * 2 ^ 16 + (td.long_msg.getD 1 0 % 256) * 2 ^ 8
             + td.long_msg.getD 2 0 % 256
    let m : ℚ := (t : ℚ) * 10 / (time_div : ℚ)
    (td, if m < 1 then 1 else m, t)
  else if meta_type = 0x2F then
    ({ td with data := [], length := 0 }, multiplier, bpm)
  else (td, multiplier, bpm)

/-- Mirror of `Event` (player.rs 11-16). -/
structure Event where
  data : Nat
  track : Nat
  is_tempo : Bool
deriving Repr, DecidableEq

/-- Mirror of `TrackEvents` (player.rs 27-33). -/
structure TrackEvents where
  events : List (Nat × Event)
  tempo_changes : List (Nat × Nat)
  note_count : Nat
  max_tick : Nat
deriving Repr, DecidableEq

/-- One iteration of the `parse_single_track` loop body (player.rs 42-81):
record the tick, decode one command/message, and dispatch on the status class
(channel message with note counting, or meta event with tempo extraction and
possible end-of-track). -/
def parse_step (track_idx time_div : Nat) (td : TrackData) (acc : TrackEvents) (bpm : Nat) :
    TrackData × TrackEvents × Nat :=
  let current_tick := td.tick
  let acc0 := { acc with max_tick := max acc.max_tick current_tick }
  let td1 := update_message (update_command td)
  let message := td1.message
  let status := message % 256
  if status < 0xF0 then
    let acc1 :=
      if 0x90 ≤ status ∧ status ≤ 0x9F ∧ 0 < message / 2 ^ 16 % 256 then
        { acc0 with note_count := acc0.note_count + 1 }
      else acc0
    (td1,
     { acc1 with events := acc1.events ++ [(current_tick, ⟨message, track_idx, false⟩)] },
     bpm)
  else if status = 0xFF then
    let r := process_meta_event td1 0 bpm time_div
    let acc1 :=
      if r.2.2 ≠ bpm then
        { acc0 with tempo_changes := acc0.tempo_changes ++ [(current_tick, r.2.2)] }
      else acc0
    (r.1, acc1, r.2.2)
  else (td1, acc0, bpm)

/-- Loop of `parse_single_track` (player.rs 35-92).  The Rust loop runs while
`track.length > 0`; termination is not structural (a track whose bytes run out
without an end-of-track meta event loops forever), so the embedding takes
explicit fuel and returns `none` when the fuel runs out before the loop exits. -/
def parse_single_track_loop (track_idx time_div : Nat) :
    Nat → TrackData → TrackEvents → Nat → Option TrackEvents
  | 0, td, acc, _ => if td.length = 0 then some acc else none
  | fuel + 1, td, acc, bpm =>
    if td.length = 0 then some acc
    else
      let next := parse_step track_idx time_div td acc bpm
      parse_single_track_loop track_idx time_div fuel (update_tick next.1) next.2.1 next.2.2

/-- `parse_single_track` (player.rs 35-92), fuelled. -/
def parse_single_track (fuel : Nat) (td : TrackData) (track_idx time_div : Nat) :
    Option TrackEvents :=
  parse_single_track_loop track_idx time_div fuel td ⟨[], [], 0, 0⟩ 500000

/-- The parallel per-track map of `parse_midi_events` (player.rs 112-129):
each track is parsed independently, tagged with its index narrowed
`idx as u16`, and the results are collected in track order. -/
def parse_tracks_go (fuel time_div : Nat) : Nat → List TrackData → Option (List TrackEvents)
  | _, [] => some []
  | idx, td :: rest =>
    match parse_single_track fuel td (idx % 2 ^ 16) time_div with
    | none => none
    | some tr =>
      match parse_tracks_go fuel time_div (idx + 1) rest with
      | none => none
      | some trs => some (tr :: trs)

/-- All per-track results of `parse_midi_events` (player.rs 112-129). -/
def parse_all_tracks (fuel time_div : Nat) (tracks : List TrackData) :
    Option (List TrackEvents) :=
  parse_tracks_go fuel time_div 0 tracks

/-- Tempo-event half of the merge (player.rs 142-154): every track's tempo
changes, concatenated first, `data` narrowed `as u32`, `track` fixed to 0. -/
def tempo_merge (trs : List TrackEvents) : List (Nat × Event) :=
  (trs.map fun tr => tr.tempo_changes.map fun p => (p.1, Event.mk (p.2 % 2 ^ 32) 0 true)).flatten

/-- Channel-event half of the merge (player.rs 157-159). -/
def channel_merge (trs : List TrackEvents) : List (Nat × Event) :=
  (trs.map fun tr => tr.events).flatten

/-- Sort key of `par_sort_by_key(|&(tick, _)| tick)` (player.rs 162). -/
def tickLE (a b : Nat × Event) : Prop := a.1 ≤ b.1

instance : DecidableRel tickLE := fun a b => inferInstanceAs (Decidable (a.1 ≤ b.1))

instance : IsTotal (Nat × Event) tickLE := ⟨fun a b => Nat.le_total a.1 b.1⟩

instance : IsTrans (Nat × Event) tickLE := ⟨fun _ _ _ h₁ h₂ => Nat.le_trans h₁ h₂⟩

/-- The merged, tick-sorted stream (player.rs 138-162).  Rayon's
`par_sort_by_key` is a stable sort, and the output of a stable sort by a key
is uniquely determined by the input order, so the stable `insertionSort` (it
inserts each element before the strictly-greater keys and after equal keys
coming from earlier input positions) produces exactly the same list. -/
def merged_events (trs : List TrackEvents) : List (Nat × Event) :=
  List.insertionSort tickLE (tempo_merge trs ++ channel_merge trs)

/-- Mirror of `ParsedMidi` (player.rs 18-25); `total_duration` is kept in
nanoseconds (`Duration::from_nanos`, saturated at `u64::MAX`). -/
structure ParsedMidi where
  events : List Event
  deltas : List (Nat × Nat)
  total_ticks : Nat
  total_duration_ns : Nat
  note_count : Nat
deriving Repr, DecidableEq

/-- Delta-table / duration building scan of `parse_midi_events`
(player.rs 171-192).  State: current index `i`, `prev_tick`, live `bpm`,
accumulated microseconds.  The pushed entry is `((i-1) as u32,
delta_tick.min(u32::MAX) as u32)`; the µs accumulation uses the tempo active
*before* the jump. -/
def build_loop (time_div : Nat) :
    List (Nat × Event) → Nat → Nat → Nat → Nat → List Event × List (Nat × Nat) × Nat
  | [], _, _, _, acc_us => ([], [], acc_us)
  | (tick, ev) :: rest, i, prev_tick, bpm, acc_us =>
    let step :=
      if prev_tick < tick then
        let delta_tick := tick - prev_tick
        ((if 0 < i then [((i - 1) % 2 ^ 32, min delta_tick (2 ^ 32 - 1))] else []),
         acc_us + delta_tick * bpm / time_div, tick)
      else ([], acc_us, prev_tick)
    let bpm' := if ev.is_tempo then ev.data else bpm
    let r := build_loop time_div rest (i + 1) step.2.2 bpm' step.2.1
    (ev :: r.1, step.1 ++ r.2.1, r.2.2)

/-- Assembly tail of `parse_midi_events` (player.rs 134-218): totals, merge,
sort, delta scan, duration clamp. -/
def assemble (time_div : Nat) (trs : List TrackEvents) : ParsedMidi :=
  let note_count := (trs.map (·.note_count)).sum
  let total_ticks := (trs.map (·.max_tick)).foldr max 0
  let r := build_loop time_div (merged_events trs) 0 0 500000 0
  { events := r.1, deltas := r.2.1, total_ticks := total_ticks,
    total_duration_ns := min (r.2.2 * 1000) (2 ^ 64 - 1), note_count := note_count }

/-- `parse_midi_events` (player.rs 94-218), fuelled through the per-track
loops. -/
def parse_midi_events (fuel : Nat) (tracks : List TrackData) (time_div : Nat) :
    Option ParsedMidi :=
  if tracks = [] then some ⟨[], [], 0, 0, 0⟩
  else (parse_all_tracks fuel time_div tracks).map (assemble time_div)

/-- `read_exact` over an in-memory byte stream: consume exactly `n` bytes or
fail (an `io::ErrorKind::UnexpectedEof`). -/
def read_exact (n : Nat) (bytes : List Nat) : Option (List Nat × List Nat) :=
  if n ≤ bytes.length then some (bytes.take n, bytes.drop n) else none

/-- Big-endian `u32` from 4 bytes (`u32::from_be_bytes`). -/
def be32 (bs : List Nat) : Nat :=
  (bs.getD 0 0 % 256) * 2 ^ 24 + (bs.getD 1 0 % 256) * 2 ^ 16 + (bs.getD 2 0 % 256) * 2 ^ 8
    + bs.getD 3 0 % 256

/-- Big-endian `u16` from 2 bytes (`u16::from_be_bytes`). -/
def be16 (bs : List Nat) : Nat :=
  (bs.getD 0 0 % 256) * 2 ^ 8 + bs.getD 1 0 % 256

/-- Track construction of the loader (loader.rs 72-75): fresh `TrackData` with
the chunk's bytes, followed by one `update_tick` consuming the first
delta-time. -/
def mk_track (bytes : List Nat) : TrackData :=
  update_tick ⟨bytes, [], 0, 0, bytes.length, 0, 0, none⟩

/-- Track-chunk reading loop of `load_midi_file` (loader.rs 55-78): reads up to
`num_tracks` chunks; a chunk whose tag is not `MTrk` stops the scan (`break`)
without error; a `read_exact` that runs past the end of the input fails. -/
def load_tracks : Nat → List Nat → Except String (List TrackData)
  | 0, _ => .ok []
  | n + 1, bytes =>
    match read_exact 4 bytes with
    | none => .error "failed to fill whole buffer"
    | some (tag, r1) =>
      if tag.map (· % 256) ≠ [77, 84, 114, 107] then .ok []
      else
        match read_exact 4 r1 with
        | none => .error "failed to fill whole buffer"
        | some (lenb, r2) =>
          match read_exact (be32 lenb) r2 with
          | none => .error "failed to fill whole buffer"
          | some (dat, r3) =>
            match load_tracks n r3 with
            | .error e => .error e
            | .ok rest => .ok (mk_track dat :: rest)

/-- `load_midi_file` (loader.rs 9-81) over an in-memory byte list (the
`File::open` step is outside the model).  Returns the track list and the time
division, or the error message the Rust code produces. -/
def load_midi_file (bytes : List Nat) : Except String (List TrackData × Nat) :=
  match read_exact 4 bytes with
  | none => .error "failed to fill whole buffer"
  | some (header, r1) =>
    if header.map (· % 256) ≠ [77, 84, 104, 100] then .error "Not a MIDI file"
    else
      match read_exact 4 r1 with
      | none => .error "failed to fill whole buffer"
      | some (hlenb, r2) =>
        if be32 hlenb ≠ 6 then .error "Invalid header length"
        else
          match read_exact 2 r2 with
          | none => .error "failed to fill whole buffer"
          | some (_fmt, r3) =>
            match read_exact 2 r3 with
            | none => .error "failed to fill whole buffer"
            | some (ntrkb, r4) =>
              match read_exact 2 r4 with
              | none => .error "failed to fill whole buffer"
              | some (divb, r5) =>
                -- `(time_div & 0x8000) != 0` on a `u16`: the top bit is set
                -- exactly when `2 ^ 15 ≤ time_div` (`be16` is `< 2 ^ 16`).
                if 2 ^ 15 ≤ be16 divb then
                  .error "SMPTE timing is not supported"
                else
                  match load_tracks (be16 ntrkb) r5 with
                  | .error e => .error e
                  | .ok tracks => .ok (tracks, be16 divb)

/-! ### Scheduler core (player.rs 220-300) and batching pipeline (310-437) -/

/-- Two's-complement wrapping into the signed 64-bit range: Rust `i64`
arithmetic (release-mode overflow wraps; `wrapping_add` wraps by
definition). -/
def wrap64 (x : Int) : Int := (x + 2 ^ 63) % 2 ^ 64 - 2 ^ 63

/-- Rust's `as i64` cast from `f64`: truncation toward zero, saturating at the
`i64` range.  On exact rationals truncation toward zero is `num / den` with
`Int` division. -/
def sat_trunc_i64 (q : ℚ) : Int :=
  max (-(2 ^ 63)) (min (q.num / (q.den : Int)) (2 ^ 63 - 1))

/-- The scheduler state of `play_parsed_events` (player.rs 236-247): the live
tick→time multiplier (`f64`, modeled as `ℚ`), the previous expected interval
`old`, the drift accumulator `delta`, the last wall-clock checkpoint, the
running tick, and the number of `get_time_100ns` calls made so far (the clock
is modeled as a function from call number to the returned time). -/
structure PlayState where
  mult : ℚ
  old : Int
  delta : Int
  last_time : Int
  tick : Nat
  clock_idx : Nat
deriving Repr, DecidableEq

/-- Observable actions of the scheduler: `send` is a `send_direct_data(data,
track)` call, `sleep` is a `delay_fn(sleep_time)` call (only made with a
positive argument). -/
inductive OutAction
  | send (data : Nat) (track : Nat)
  | sleep (t : Int)
deriving Repr, DecidableEq

/-- Per-event processing of `play_parsed_events` (player.rs 255-260): a tempo
event updates the live tempo and multiplier `bpm / time_div * 10.0`; any other
event goes to the sink. -/
def proc_event (time_div : Nat) (s : PlayState) (e : Event) : PlayState × List OutAction :=
  if e.is_tempo then
    ({ s with mult := (e.data : ℚ) / (time_div : ℚ) * 10 }, [])
  else (s, [.send e.data e.track])

/-- The `sleep_time` computed by the drift-corrected waiting step
(player.rs 266-276). -/
def sleep_time_of (clock : Nat → Int) (s : PlayState) (delta_ticks : Nat) : Int :=
  let now := clock s.clock_idx
  let elapsed := wrap64 (now - s.last_time)
  let work_time := wrap64 (elapsed - s.old)
  let old' := sat_trunc_i64 ((delta_ticks : ℚ) * s.mult)
  let delta' := wrap64 (s.delta + work_time)
  if 0 < delta' then wrap64 (old' - delta') else old'

/-- Drift-corrected waiting step of the scheduler (player.rs 263-283): advance
the tick, read the clock, account the previous interval's overrun into the
drift accumulator `delta`, and either sleep for the corrected interval or —
when `sleep_time ≤ 0` — skip sleeping and clamp the drift to
`max_drift = 100000`. -/
def timing_step (clock : Nat → Int) (s : PlayState) (delta_ticks : Nat) :
    PlayState × List OutAction :=
  let now := clock s.clock_idx
  let elapsed := wrap64 (now - s.last_time)
  let work_time := wrap64 (elapsed - s.old)
  let old' := sat_trunc_i64 ((delta_ticks : ℚ) * s.mult)
  let delta' := wrap64 (s.delta + work_time)
  let sleep_time := if 0 < delta' then wrap64 (old' - delta') else old'
  let s' : PlayState :=
    { s with tick := (s.tick + delta_ticks) % 2 ^ 64,
             last_time := now, old := old', clock_idx := s.clock_idx + 1 }
  if sleep_time ≤ 0 then ({ s' with delta := min delta' 100000 }, [])
  else ({ s' with delta := delta' }, [.sleep sleep_time])

/-- The event/delta loop of `play_parsed_events` (player.rs 249-299): process
each event in order; when the next delta entry's index equals the current
event index (`idx == i as u32`), run the waiting step and advance the delta
cursor. -/
def play_loop (clock : Nat → Int) (time_div : Nat) :
    List Event → Nat → List (Nat × Nat) → PlayState → List OutAction
  | [], _, _, _ => []
  | e :: rest, i, deltas, s =>
    let pr := proc_event time_div s e
    match deltas with
    | [] => pr.2 ++ play_loop clock time_div rest (i + 1) [] pr.1
    | (idx, dt) :: drest =>
      if idx = i % 2 ^ 32 then
        let ts := timing_step clock pr.1 dt
        pr.2 ++ ts.2 ++ play_loop clock time_div rest (i + 1) drest ts.1
      else pr.2 ++ play_loop clock time_div rest (i + 1) ((idx, dt) :: drest) pr.1

/-- `play_parsed_events` (player.rs 220-300): immediate return on an empty
event list, otherwise the scheduler loop from the initial state (multiplier 0,
`last_time` = first clock reading). -/
def play_parsed_events (clock : Nat → Int) (pm : ParsedMidi) (time_div : Nat) :
    List OutAction :=
  if pm.events = [] then []
  else
    play_loop clock time_div pm.events 0 pm.deltas
      { mult := 0, old := 0, delta := 0, last_time := clock 0, tick := 0, clock_idx := 1 }

/-- Mirror of `UnpackedEvent` (player.rs 302-308); `idx` is the original event
index narrowed `as u32`. -/
structure UnpackedEvent where
  idx : Nat
  data : Nat
  track : Nat
  is_tempo : Bool
deriving Repr, DecidableEq

/-- The producer thread's unpacking (player.rs 346-365): attach each event's
index (`idx as u32`). -/
def unpack_events (evs : List Event) : List UnpackedEvent :=
  evs.enum.map fun p => ⟨p.1 % 2 ^ 32, p.2.data, p.2.track, p.2.is_tempo⟩

/-- The producer's batching (player.rs 347-355): split the unpacked stream
into successive batches of `batch_size = 65536` events.  Each step removes at
least one element, so running on fuel `length` is exact. -/
def chunks_of_go : Nat → List UnpackedEvent → List (List UnpackedEvent)
  | 0, _ => []
  | _ + 1, [] => []
  | fuel + 1, e :: rest =>
    (e :: rest).take 65536 :: chunks_of_go fuel ((e :: rest).drop 65536)

/-- Batches the producer pushes to the work queue, in order (the trailing
empty batch is the end-of-stream sentinel, modeled by the end of this list). -/
def chunks_of (l : List UnpackedEvent) : List (List UnpackedEvent) :=
  chunks_of_go l.length l

/-- The consumer's delta `while` loop (player.rs 403-429): consume every
consecutive delta entry whose index equals the current event's `idx`, running
the waiting step for each. -/
def consume_deltas (clock : Nat → Int) (ev_idx : Nat) :
    List (Nat × Nat) → PlayState → List OutAction × List (Nat × Nat) × PlayState
  | [], s => ([], [], s)
  | (didx, dt) :: drest, s =>
    if didx ≠ ev_idx then ([], (didx, dt) :: drest, s)
    else
      let ts := timing_step clock s dt
      let r := consume_deltas clock ev_idx drest ts.1
      (ts.2 ++ r.1, r.2.1, r.2.2)

/-- Per-event processing of the batched consumer (player.rs 396-400),
textually identical to the unbatched one. -/
def proc_event_batched (time_div : Nat) (s : PlayState) (e : UnpackedEvent) :
    PlayState × List OutAction :=
  if e.is_tempo then
    ({ s with mult := (e.data : ℚ) / (time_div : ℚ) * 10 }, [])
  else (s, [.send e.data e.track])

/-- One batch of the consumer loop (player.rs 395-430). -/
def run_batch (clock : Nat → Int) (time_div : Nat) :
    List UnpackedEvent → List (Nat × Nat) → PlayState →
      List OutAction × List (Nat × Nat) × PlayState
  | [], ds, s => ([], ds, s)
  | e :: es, ds, s =>
    let pr := proc_event_batched time_div s e
    let cd := consume_deltas clock e.idx ds pr.1
    let r := run_batch clock time_div es cd.2.1 cd.2.2
    (pr.2 ++ cd.1 ++ r.1, r.2)

/-- The consumer's batch loop (player.rs 390-433): process batches in order
until the end-of-stream sentinel. -/
def run_batches (clock : Nat → Int) (time_div : Nat) :
    List (List UnpackedEvent) → List (Nat × Nat) → PlayState → List OutAction
  | [], _, _ => []
  | b :: bs, ds, s =>
    let r := run_batch clock time_div b ds s
    r.1 ++ run_batches clock time_div bs r.2.1 r.2.2

/-- `play_parsed_events_batched` (player.rs 310-437): immediate return on an
empty event list, otherwise the producer/consumer pipeline; since the sink and
delay calls all happen on the consumer and the batches arrive in order, the
observable trace is the consumer loop over the ordered batches. -/
def play_parsed_events_batched (clock : Nat → Int) (pm : ParsedMidi) (time_div : Nat) :
    List OutAction :=
  if pm.events = [] then []
  else
    run_batches clock time_div (chunks_of (unpack_events pm.events)) pm.deltas
      { mult := 0, old := 0, delta := 0, last_time := clock 0, tick := 0, clock_idx := 1 }

/-! ### Shared arithmetic lemmas for the scheduler -/

theorem wrap64_lb (x : Int) : -(2 ^ 63) ≤ wrap64 x := by
  unfold wrap64
  have h := Int.emod_nonneg (x + 2 ^ 63) (b := (2 : Int) ^ 64) (by norm_num)
  omega

theorem wrap64_ub (x : Int) : wrap64 x < 2 ^ 63 := by
  unfold wrap64
  have h := Int.emod_lt_of_pos (x + 2 ^ 63) (b := (2 : Int) ^ 64) (by norm_num)
  have e : (2 : Int) ^ 64 = 2 ^ 63 * 2 := by norm_num
  omega

theorem wrap64_eq_self {x : Int} (h1 : -(2 ^ 63) ≤ x) (h2 : x < 2 ^ 63) : wrap64 x = x := by
  unfold wrap64
  have e : (2 : Int) ^ 64 = 2 ^ 63 * 2 := by norm_num
  rw [Int.emod_eq_of_lt (by omega) (by omega)]
  omega

theorem sat_trunc_i64_zero : sat_trunc_i64 0 = 0 := by
  norm_num [sat_trunc_i64]

/-! ### C2: the multiplier recomputation -/

/-- Modelled from the spec's words (§4.4): "100-nanosecond units per tick =
tempo_µs × 10 / time_division, floored at 1" — the multiplier update the
claim says the scheduler loops perform on a Tempo Change event. -/
def spec_multiplier (time_div data : Nat) : ℚ :=
  max 1 ((data : ℚ) * 10 / (time_div : ℚ))

/-- C2, counterexample: consuming a Tempo Change with tempo 1 µs/qn at time
division 480 sets the multiplier to 1/48 in both scheduler loops, while the
claimed floored formula gives 1 — the scheduler loops perform no flooring
(player.rs 257 and 398 are plain `bpm / time_div * 10.0`; the flooring at 1
exists only in `process_meta_event`, whose multiplier output the parser
discards). -/
theorem c2_counterexample :
    (proc_event 480 ⟨0, 0, 0, 0, 0, 1⟩ ⟨1, 0, true⟩).1.mult = 1 / 48 ∧
    (proc_event_batched 480 ⟨0, 0, 0, 0, 0, 1⟩ ⟨0, 1, 0, true⟩).1.mult = 1 / 48 ∧
    spec_multiplier 480 1 = 1 ∧ (1 / 48 : ℚ) < 1 := by
  refine ⟨by norm_num [proc_event], by norm_num [proc_event_batched], ?_, by norm_num⟩
  rw [spec_multiplier, max_eq_left (by norm_num)]

/-- C2, amended: whenever either scheduler loop consumes a Tempo Change event,
it recomputes the multiplier as `tempo_µs / time_division × 10` — equal, as an
exact rational, to the claimed `tempo_µs × 10 / time_division` — but with no
flooring at a minimum of 1. -/
theorem c2_amended :
    (∀ (time_div data track : Nat) (s : PlayState),
      (proc_event time_div s ⟨data, track, true⟩).1.mult
        = (data : ℚ) / (time_div : ℚ) * 10) ∧
    (∀ (time_div idx data track : Nat) (s : PlayState),
      (proc_event_batched time_div s ⟨idx, data, track, true⟩).1.mult
        = (data : ℚ) / (time_div : ℚ) * 10) ∧
    (∀ time_div data : Nat,
      (data : ℚ) / (time_div : ℚ) * 10 = (data : ℚ) * 10 / (time_div : ℚ)) :=
  ⟨fun _ _ _ _ => rfl, fun _ _ _ _ _ => rfl, fun _ _ => by ring⟩

/-! ### C7: the drift clamp -/

/-- C7: whenever the drift-corrected waiting step computes `sleep_time ≤ 0`,
it performs no sleep (the action list of the step is empty) and immediately
clamps the drift accumulator to `min delta 100000 ≤ 100000`; hence the drift
carried out of a non-sleeping iteration never exceeds 100000 (10 ms in 100 ns
units). -/
theorem c7_drift_clamp (clock : Nat → Int) (s : PlayState) (dt : Nat)
    (h : sleep_time_of clock s dt ≤ 0) :
    (timing_step clock s dt).2 = [] ∧ (timing_step clock s dt).1.delta ≤ 100000 := by
  simp only [sleep_time_of] at h
  simp only [timing_step, if_pos h]
  exact ⟨by simp, by simp [min_le_right]⟩

/-- Witness for `c7_drift_clamp` at a concrete non-sleeping state. -/
theorem c7_drift_clamp_witness :
    sleep_time_of (fun _ => 0) ⟨0, 0, 0, 0, 0, 0⟩ 0 ≤ 0 ∧
      ((timing_step (fun _ => 0) ⟨0, 0, 0, 0, 0, 0⟩ 0).2 = [] ∧
        (timing_step (fun _ => 0) ⟨0, 0, 0, 0, 0, 0⟩ 0).1.delta ≤ 100000) :=
  ⟨by norm_num [sleep_time_of, wrap64, sat_trunc_i64],
   c7_drift_clamp _ _ _ (by norm_num [sleep_time_of, wrap64, sat_trunc_i64])⟩

/-! ### C9: empty inputs -/

/-- C9: with an empty event list both players return at once, producing no
sink and no delay calls (an empty action trace); and parsing an empty track
list yields the all-empty `ParsedMidi`. -/
theorem c9_empty (clock : Nat → Int) (time_div : Nat) (pm : ParsedMidi)
    (h : pm.events = []) :
    play_parsed_events clock pm time_div = [] ∧
      play_parsed_events_batched clock pm time_div = [] ∧
      ∀ fuel td, parse_midi_events fuel [] td = some ⟨[], [], 0, 0, 0⟩ :=
  ⟨by simp [play_parsed_events, h], by simp [play_parsed_events_batched, h],
   fun _ _ => rfl⟩

/-- Witness for `c9_empty` at a concrete `ParsedMidi` with empty events (but
non-empty deltas and non-zero counters). -/
theorem c9_empty_witness :
    play_parsed_events (fun _ => 9) ⟨[], [(3, 4)], 5, 6, 7⟩ 13 = [] ∧
      play_parsed_events_batched (fun _ => 9) ⟨[], [(3, 4)], 5, 6, 7⟩ 13 = [] ∧
      ∀ fuel td, parse_midi_events fuel [] td = some ⟨[], [], 0, 0, 0⟩ :=
  c9_empty (fun _ => 9) 13 ⟨[], [(3, 4)], 5, 6, 7⟩ rfl

/-! ### C10: no waiting before the first tempo change -/

/-- With a zero multiplier and zero previous-expected interval, the waiting
step computes `sleep_time ≤ 0`, so it never sleeps, and it keeps `old = 0` and
the multiplier untouched. -/
theorem timing_step_mult_zero (clock : Nat → Int) (s : PlayState) (dt : Nat)
    (hm : s.mult = 0) (ho : s.old = 0) :
    sleep_time_of clock s dt ≤ 0 ∧ (timing_step clock s dt).2 = [] ∧
      (timing_step clock s dt).1.old = 0 ∧ (timing_step clock s dt).1.mult = 0 ∧
      (timing_step clock s dt).1.clock_idx = s.clock_idx + 1 := by
  have hst : sleep_time_of clock s dt ≤ 0 := by
    simp only [sleep_time_of, hm, ho, mul_zero, sat_trunc_i64_zero]
    set d' := wrap64 (s.delta + wrap64 (wrap64 (clock s.clock_idx - s.last_time) - 0)) with hd
    by_cases hpos : 0 < d'
    · rw [if_pos hpos]
      have hub := wrap64_ub (0 - d')
      have hlb : -(2 ^ 63) ≤ 0 - d' := by
        have := wrap64_ub (s.delta + wrap64 (wrap64 (clock s.clock_idx - s.last_time) - 0))
        omega
      rw [wrap64_eq_self hlb (by omega)]
      omega
    · rw [if_neg hpos]
  refine ⟨hst, ?_⟩
  simp only [sleep_time_of] at hst
  simp only [timing_step, if_pos hst]
  simp [hm, ho, sat_trunc_i64_zero]

/-- C10: the scheduler starts with multiplier 0 and `old = 0`; as long as only
non-tempo events have been consumed these stay 0, every reached delta entry
computes `sleep_time ≤ 0`, the delay callback is never invoked, and the
events preceding the first Tempo Change are all dispatched back-to-back: the
trace of an all-channel prefix is exactly its `send` list. -/
theorem c10_no_wait_before_tempo :
    (∀ (clock : Nat → Int) (s : PlayState) (dt : Nat), s.mult = 0 → s.old = 0 →
      sleep_time_of clock s dt ≤ 0 ∧ (timing_step clock s dt).2 = []) ∧
    (∀ (clock : Nat → Int) (time_div : Nat) (pre post : List Event) (i : Nat)
        (ds : List (Nat × Nat)) (s : PlayState),
      (∀ e ∈ pre, e.is_tempo = false) → s.mult = 0 → s.old = 0 →
      ∃ ds' s', s'.mult = 0 ∧ s'.old = 0 ∧
        play_loop clock time_div (pre ++ post) i ds s =
          pre.map (fun e => OutAction.send e.data e.track) ++
            play_loop clock time_div post (i + pre.length) ds' s') ∧
    (∀ (clock : Nat → Int) (time_div : Nat) (pm : ParsedMidi) (pre post : List Event),
      pm.events = pre ++ post → (∀ e ∈ pre, e.is_tempo = false) →
      ∃ ds' s', s'.mult = 0 ∧ s'.old = 0 ∧
        play_parsed_events clock pm time_div =
          pre.map (fun e => OutAction.send e.data e.track) ++
            play_loop clock time_div post pre.length ds' s') := by
  have hstep : ∀ (clock : Nat → Int) (s : PlayState) (dt : Nat), s.mult = 0 → s.old = 0 →
      sleep_time_of clock s dt ≤ 0 ∧ (timing_step clock s dt).2 = [] :=
    fun clock s dt hm ho =>
      ⟨(timing_step_mult_zero clock s dt hm ho).1, (timing_step_mult_zero clock s dt hm ho).2.1⟩
  have hloop : ∀ (clock : Nat → Int) (time_div : Nat) (pre post : List Event) (i : Nat)
      (ds : List (Nat × Nat)) (s : PlayState),
      (∀ e ∈ pre, e.is_tempo = false) → s.mult = 0 → s.old = 0 →
      ∃ ds' s', s'.mult = 0 ∧ s'.old = 0 ∧
        play_loop clock time_div (pre ++ post) i ds s =
          pre.map (fun e => OutAction.send e.data e.track) ++
            play_loop clock time_div post (i + pre.length) ds' s' := by
    intro clock time_div pre
    induction pre with
    | nil => intro post i ds s _ hm ho; exact ⟨ds, s, hm, ho, by simp⟩
    | cons e pre ih =>
      intro post i ds s hnt hm ho
      have het : e.is_tempo = false := hnt e (List.mem_cons_self e pre)
      have hnt' : ∀ x ∈ pre, x.is_tempo = false := fun x hx => hnt x (List.mem_cons_of_mem e hx)
      have hpr : proc_event time_div s e = (s, [.send e.data e.track]) := by
        simp [proc_event, het]
      have harith : i + 1 + pre.length = i + (pre.length + 1) := by omega
      match ds with
      | [] =>
        obtain ⟨ds', s', hm', ho', heq⟩ := ih post (i + 1) [] s hnt' hm ho
        rw [harith] at heq
        refine ⟨ds', s', hm', ho', ?_⟩
        simp only [List.cons_append, play_loop, hpr]
        simpa using heq
      | (idx, dt) :: drest =>
        by_cases hidx : idx = i % 2 ^ 32
        · have hts := timing_step_mult_zero clock s dt hm ho
          obtain ⟨ds', s', hm', ho', heq⟩ :=
            ih post (i + 1) drest (timing_step clock s dt).1 hnt' hts.2.2.2.1 hts.2.2.1
          rw [harith] at heq
          refine ⟨ds', s', hm', ho', ?_⟩
          simp only [List.cons_append, play_loop, hpr, if_pos hidx, hts.2.1]
          simpa using heq
        · obtain ⟨ds', s', hm', ho', heq⟩ :=
            ih post (i + 1) ((idx, dt) :: drest) s hnt' hm ho
          rw [harith] at heq
          refine ⟨ds', s', hm', ho', ?_⟩
          simp only [List.cons_append, play_loop, hpr, if_neg hidx]
          simpa using heq
  refine ⟨hstep, hloop, ?_⟩
  intro clock time_div pm pre post hsplit hnt
  by_cases hempty : pm.events = []
  · have hpre : pre = [] := by
      rcases List.append_eq_nil.mp (hsplit ▸ hempty) with ⟨h1, _⟩
      exact h1
    have hpost : post = [] := by
      rcases List.append_eq_nil.mp (hsplit ▸ hempty) with ⟨_, h2⟩
      exact h2
    refine ⟨[], ⟨0, 0, 0, clock 0, 0, 1⟩, rfl, rfl, ?_⟩
    simp [play_parsed_events, hempty, hpre, hpost, play_loop]
  · obtain ⟨ds', s', hm', ho', heq⟩ :=
      hloop clock time_div pre post 0 pm.deltas
        ⟨0, 0, 0, clock 0, 0, 1⟩ hnt rfl rfl
    refine ⟨ds', s', hm', ho', ?_⟩
    rw [play_parsed_events, if_neg hempty, hsplit, heq]
    simp

/-- Witness for `c10_no_wait_before_tempo`: a two-channel-event stream with a
matching delta entry dispatches both events with no sleep in between. -/
theorem c10_no_wait_before_tempo_witness :
    ∃ (ds' : List (Nat × Nat)) (s' : PlayState), s'.mult = 0 ∧ s'.old = 0 ∧
      play_parsed_events (fun n => 100 * n)
          ⟨[⟨5, 0, false⟩, ⟨7, 1, false⟩], [(0, 10)], 10, 0, 2⟩ 480 =
        ([⟨5, 0, false⟩, ⟨7, 1, false⟩] : List Event).map
            (fun e => OutAction.send e.data e.track) ++
          play_loop (fun n => 100 * n) 480 [] 2 ds' s' :=
  c10_no_wait_before_tempo.2.2 (fun n => 100 * n) 480
    ⟨[⟨5, 0, false⟩, ⟨7, 1, false⟩], [(0, 10)], 10, 0, 2⟩
    [⟨5, 0, false⟩, ⟨7, 1, false⟩] [] rfl (by intro e he; fin_cases he <;> rfl)

/-! ### Concrete inputs for the end-to-end scenario (spec §8) -/

/-- Track A of the spec's end-to-end scenario: `[tick 0: Note-On C4 vel 100
channel 0]`, in standard MIDI encoding (delta 0, `90 3C 64`, then the
mandatory end-of-track meta `FF 2F 00` that every track chunk carries). -/
def c1_track_a : TrackData :=
  mk_track [0x00, 0x90, 0x3C, 0x64, 0x00, 0xFF, 0x2F, 0x00]

/-- Track B of the spec's end-to-end scenario: tempo meta 500000 µs/qn at tick
0 (`FF 51 03 07 A1 20`), Note-On D4 vel 80 at tick 480 (delta `83 60`, message
`90 3E 50`), end-of-track at tick 480. -/
def c1_track_b : TrackData :=
  mk_track [0x00, 0xFF, 0x51, 0x03, 0x07, 0xA1, 0x20, 0x83, 0x60,
            0x90, 0x3E, 0x50, 0x00, 0xFF, 0x2F, 0x00]

/-- C1, counterexample: on the spec's two-track scenario the parsed stream has
only 2 events — no TempoChange at all — and the single delta entry is
`(0, 480)`, not `(1, 480)` as claimed.  `parse_single_track` records a tempo
meta event only when the decoded tempo differs from the current one
(player.rs 72-77), and 500000 equals the initial default. -/
theorem c1_counterexample :
    (parse_midi_events 8 [c1_track_a, c1_track_b] 480).map
        (fun pm => (pm.events.length, pm.deltas)) = some (2, [(0, 480)]) := by
  decide

/-- C1, amended: the scenario parses to events = [ChannelMsg(NoteOn C4 vel 100
= 0x643C90, track 0), ChannelMsg(NoteOn D4 vel 80 = 0x503E90, track 1)] with
no TempoChange entry (the tempo meta equals the 500000 µs/qn default and is
filtered), deltas = [(0, 480)], total_ticks = 480, total_duration = 500 ms
exactly, note_count = 2. -/
theorem c1_amended :
    parse_midi_events 8 [c1_track_a, c1_track_b] 480 =
      some { events := [⟨0x643C90, 0, false⟩, ⟨0x503E90, 1, false⟩],
             deltas := [(0, 480)],
             total_ticks := 480,
             total_duration_ns := 500000000,
             note_count := 2 } := by
  decide

/-! ### C5: load-time error behavior -/

/-- A byte stream whose header is entirely well-formed (tag `MThd`, length 6,
non-SMPTE division 0x60) but whose single `MTrk` chunk declares 4 payload
bytes while only 2 remain. -/
def c5_truncated : List Nat :=
  [77, 84, 104, 100, 0, 0, 0, 6, 0, 0, 0, 1, 0, 0x60,
   77, 84, 114, 107, 0, 0, 0, 4, 1, 2]

/-- C5, counterexample: `load_midi_file` fails on `c5_truncated` even though
nothing is malformed at the header level — the truncated track chunk makes the
final `read_exact` fail, refuting "contents inside track chunks never cause
the load to fail ... fails when and only when malformed at the header
level". -/
theorem c5_counterexample :
    load_midi_file c5_truncated = .error ("failed to fill whole buffer") ∧
      (c5_truncated.take 4).map (· % 256) = [77, 84, 104, 100] ∧
      be32 ((c5_truncated.drop 4).take 4) = 6 ∧
      be16 ((c5_truncated.drop 12).take 2) < 2 ^ 15 := by
  exact ⟨rfl, by decide, by decide, by decide⟩

/-- The only error strings `load_tracks` can produce come from `read_exact`
running out of input. -/
theorem load_tracks_error :
    ∀ n bytes e, load_tracks n bytes = .error e → e = "failed to fill whole buffer" := by
  intro n
  induction n with
  | zero => intro bytes e h; simp [load_tracks] at h
  | succ n ih =>
    intro bytes e h
    unfold load_tracks at h
    split at h
    · exact (Except.error.inj h).symm
    · split at h
      · simp at h
      · split at h
        · exact (Except.error.inj h).symm
        · split at h
          · exact (Except.error.inj h).symm
          · split at h
            · rename_i heq
              cases h
              exact ih _ _ heq
            · simp at h

/-- C5, amended: a malformed header tag, a header length ≠ 6, and an SMPTE
time division each fail the load with the corresponding descriptive error (and
no partial result, `Except` being all-or-nothing); in addition — this is the
part the claim misses — a `read_exact` running past the end of the input
(e.g. a truncated track chunk) also fails the load; no other failure exists,
so contents of *fully present* track chunks never cause a failure. -/
theorem c5_amended :
    (∀ bytes : List Nat, 4 ≤ bytes.length →
      (bytes.take 4).map (· % 256) ≠ [77, 84, 104, 100] →
      load_midi_file bytes = .error ("Not a MIDI file")) ∧
    (∀ bytes : List Nat, 8 ≤ bytes.length →
      (bytes.take 4).map (· % 256) = [77, 84, 104, 100] →
      be32 ((bytes.drop 4).take 4) ≠ 6 →
      load_midi_file bytes = .error ("Invalid header length")) ∧
    (∀ bytes : List Nat, 14 ≤ bytes.length →
      (bytes.take 4).map (· % 256) = [77, 84, 104, 100] →
      be32 ((bytes.drop 4).take 4) = 6 →
      2 ^ 15 ≤ be16 ((bytes.drop 12).take 2) →
      load_midi_file bytes = .error ("SMPTE timing is not supported")) ∧
    (∀ bytes e, load_midi_file bytes = .error e →
      e = "Not a MIDI file" ∨ e = "Invalid header length" ∨
      e = "SMPTE timing is not supported" ∨ e = "failed to fill whole buffer") := by
  refine ⟨?_, ?_, ?_, ?_⟩
  · intro bytes h4 htag
    rw [List.map_take] at htag
    simp only [load_midi_file, read_exact]
    simp [h4, htag]
  · intro bytes h8 htag hlen
    rw [List.map_take] at htag
    have h4 : 4 ≤ bytes.length := by omega
    have hr1 : 4 ≤ bytes.length - 4 := by omega
    simp only [load_midi_file, read_exact]
    simp [h4, hr1, htag, hlen]
  · intro bytes h14 htag hlen hsmpte
    rw [List.map_take] at htag
    have h4 : 4 ≤ bytes.length := by omega
    have hr1 : 4 ≤ bytes.length - 4 := by omega
    have hr2 : 2 ≤ bytes.length - 8 := by omega
    have hr3 : 2 ≤ bytes.length - 10 := by omega
    have hr4 : 2 ≤ bytes.length - 12 := by omega
    simp only [load_midi_file, read_exact]
    simp [h4, hr1, hr2, hr3, hr4, htag, hlen, hsmpte]
    intro hlt
    have := hsmpte
    norm_num at this
    omega
  · intro bytes e h
    unfold load_midi_file at h
    split at h
    · exact .inr (.inr (.inr (Except.error.inj h).symm))
    · split at h
      · exact .inl (Except.error.inj h).symm
      · split at h
        · exact .inr (.inr (.inr (Except.error.inj h).symm))
        · split at h
          · exact .inr (.inl (Except.error.inj h).symm)
          · split at h
            · exact .inr (.inr (.inr (Except.error.inj h).symm))
            · split at h
              · exact .inr (.inr (.inr (Except.error.inj h).symm))
              · split at h
                · exact .inr (.inr (.inr (Except.error.inj h).symm))
                · split at h
                  · exact .inr (.inr (.inl (Except.error.inj h).symm))
                  · split at h
                    · rename_i heq
                      cases h
                      exact .inr (.inr (.inr (load_tracks_error _ _ _ heq)))
                    · simp at h

/-- Witness for `c5_amended` at concrete inputs: a wrong tag, a header length
of 5, an SMPTE time division, and the truncated-chunk failure case. -/
theorem c5_amended_witness :
    load_midi_file [0, 1, 2, 3] = .error ("Not a MIDI file") ∧
    load_midi_file [77, 84, 104, 100, 0, 0, 0, 5, 0, 0, 0, 0, 0, 96] =
      .error ("Invalid header length") ∧
    load_midi_file [77, 84, 104, 100, 0, 0, 0, 6, 0, 0, 0, 0, 231, 40] =
      .error ("SMPTE timing is not supported") ∧
    ("failed to fill whole buffer" = "Not a MIDI file" ∨
      "failed to fill whole buffer" = "Invalid header length" ∨
      "failed to fill whole buffer" = "SMPTE timing is not supported" ∨
      "failed to fill whole buffer" = "failed to fill whole buffer") :=
  ⟨c5_amended.1 _ (by decide) (by decide),
   c5_amended.2.1 _ (by decide) (by decide) (by decide),
   c5_amended.2.2.1 _ (by decide) (by decide) (by decide) (by decide),
   c5_amended.2.2.2 c5_truncated _ rfl⟩

/-! ### C4: tempo events precede channel events at equal ticks -/

theorem build_loop_events (time_div : Nat) :
    ∀ (l : List (Nat × Event)) (i prev bpm acc : Nat),
      (build_loop time_div l i prev bpm acc).1 = l.map Prod.snd := by
  intro l
  induction l with
  | nil => intro i prev bpm acc; rfl
  | cons p rest ih =>
    intro i prev bpm acc
    obtain ⟨tick, ev⟩ := p
    simp only [build_loop, ih, List.map_cons]

theorem tempo_merge_is_tempo (trs : List TrackEvents) :
    ∀ x ∈ tempo_merge trs, x.2.is_tempo = true := by
  intro x hx
  simp only [tempo_merge, List.mem_flatten, List.mem_map] at hx
  obtain ⟨l, ⟨tr, _, rfl⟩, hxl⟩ := hx
  obtain ⟨p, _, rfl⟩ := List.mem_map.mp hxl
  rfl

theorem parse_step_events_channel (track_idx time_div : Nat) (td : TrackData)
    (acc : TrackEvents) (bpm : Nat)
    (hacc : ∀ x ∈ acc.events, x.2.is_tempo = false) :
    ∀ x ∈ (parse_step track_idx time_div td acc bpm).2.1.events, x.2.is_tempo = false := by
  intro x hx
  simp only [parse_step] at hx
  split_ifs at hx <;>
    simp only [List.mem_append, List.mem_singleton] at hx <;>
    first
      | (rcases hx with hx | hx
         · exact hacc x hx
         · subst hx; rfl)
      | exact hacc x hx

theorem parse_single_track_loop_channel (track_idx time_div : Nat) :
    ∀ (fuel : Nat) (td : TrackData) (acc : TrackEvents) (bpm : Nat) (tr : TrackEvents),
      parse_single_track_loop track_idx time_div fuel td acc bpm = some tr →
      (∀ x ∈ acc.events, x.2.is_tempo = false) →
      ∀ x ∈ tr.events, x.2.is_tempo = false := by
  intro fuel
  induction fuel with
  | zero =>
    intro td acc bpm tr h hacc
    rw [parse_single_track_loop] at h
    split at h
    · cases h; exact hacc
    · cases h
  | succ fuel ih =>
    intro td acc bpm tr h hacc
    rw [parse_single_track_loop] at h
    split at h
    · cases h; exact hacc
    · exact ih _ _ _ _ h (parse_step_events_channel _ _ _ _ _ hacc)

theorem parse_tracks_go_channel (fuel time_div : Nat) :
    ∀ (tracks : List TrackData) (idx : Nat) (trs : List TrackEvents),
      parse_tracks_go fuel time_div idx tracks = some trs →
      ∀ tr ∈ trs, ∀ x ∈ tr.events, x.2.is_tempo = false := by
  intro tracks
  induction tracks with
  | nil =>
    intro idx trs h
    cases h
    intro tr htr
    simp at htr
  | cons td rest ih =>
    intro idx trs h tr htr
    rw [parse_tracks_go] at h
    split at h
    · cases h
    · rename_i tr0 htr0
      split at h
      · cases h
      · rename_i trs0 htrs0
        cases h
        rcases List.mem_cons.mp htr with rfl | htr'
        · exact parse_single_track_loop_channel _ _ _ _ _ _ _ htr0
            (by intro x hx; simp at hx)
        · exact ih (idx + 1) trs0 htrs0 tr htr'

theorem channel_merge_not_tempo (fuel time_div : Nat) (tracks : List TrackData)
    (trs : List TrackEvents) (hp : parse_all_tracks fuel time_div tracks = some trs) :
    ∀ x ∈ channel_merge trs, x.2.is_tempo = false := by
  intro x hx
  simp only [channel_merge, List.mem_flatten, List.mem_map] at hx
  obtain ⟨l, ⟨tr, htr, rfl⟩, hxl⟩ := hx
  exact parse_tracks_go_channel fuel time_div tracks 0 trs hp tr htr x hxl

theorem filter_orderedInsert (t : Nat) (a : Nat × Event) :
    ∀ l : List (Nat × Event),
      (List.orderedInsert tickLE a l).filter (fun p => p.1 = t) =
        if a.1 = t then a :: l.filter (fun p => p.1 = t)
        else l.filter (fun p => p.1 = t) := by
  intro l
  induction l with
  | nil =>
    by_cases hat : a.1 = t <;> simp [List.orderedInsert, List.filter_cons, hat]
  | cons b l ih =>
    by_cases hab : tickLE a b
    · rw [List.orderedInsert, if_pos hab]
      by_cases hat : a.1 = t <;> simp [List.filter_cons, hat]
    · rw [List.orderedInsert, if_neg hab]
      have hba : b.1 < a.1 := Nat.lt_of_not_le hab
      by_cases hat : a.1 = t
      · have hbt : ¬ b.1 = t := by omega
        simp [List.filter_cons, hbt, ih, hat]
      · simp [List.filter_cons, ih, hat]

theorem filter_insertionSort (t : Nat) :
    ∀ l : List (Nat × Event),
      (List.insertionSort tickLE l).filter (fun p => p.1 = t) =
        l.filter (fun p => p.1 = t) := by
  intro l
  induction l with
  | nil => rfl
  | cons b l ih =>
    rw [List.insertionSort, filter_orderedInsert]
    by_cases hbt : b.1 = t <;> simp [List.filter_cons, hbt, ih]

theorem pair_sublist_of_lt {α : Type _} :
    ∀ (l : List α) (i j : Nat) (hi : i < l.length) (hj : j < l.length), i < j →
      List.Sublist [l.get ⟨i, hi⟩, l.get ⟨j, hj⟩] l := by
  intro l
  induction l with
  | nil => intro i j hi hj hij; simp at hi
  | cons a l ih =>
    intro i j hi hj hij
    have hlen : (a :: l).length = l.length + 1 := rfl
    match i, j with
    | 0, j + 1 =>
      simp only [List.get_cons_zero, List.get_cons_succ]
      exact (List.singleton_sublist.mpr (List.get_mem l _ _)).cons₂ a
    | i + 1, j + 1 =>
      simp only [List.get_cons_succ]
      exact (ih i j (by omega) (by omega) (by omega)).cons a

/-- C4: in the merged, tick-sorted stream, a Tempo Change and a Channel
Message carrying the same tick always place the Tempo Change at the smaller
index — the concatenation puts every tempo event before every channel event
and the stable sort keeps that order inside each tick class; `ParsedMidi`'s
`events` field is exactly that merged stream with the ticks stripped. -/
theorem c4_tempo_before_channel (fuel time_div : Nat) (tracks : List TrackData)
    (trs : List TrackEvents) (pm : ParsedMidi)
    (hp : parse_all_tracks fuel time_div tracks = some trs)
    (hne : tracks ≠ [])
    (hpm : parse_midi_events fuel tracks time_div = some pm) :
    pm.events = (merged_events trs).map Prod.snd ∧
    ∀ (i j : Nat) (hi : i < (merged_events trs).length) (hj : j < (merged_events trs).length),
      ((merged_events trs).get ⟨i, hi⟩).1 = ((merged_events trs).get ⟨j, hj⟩).1 →
      ((merged_events trs).get ⟨i, hi⟩).2.is_tempo = true →
      ((merged_events trs).get ⟨j, hj⟩).2.is_tempo = false →
      i < j := by
  have hasm : pm = assemble time_div trs := by
    rw [parse_midi_events, if_neg hne, parse_all_tracks] at hpm
    rw [parse_all_tracks] at hp
    rw [hp] at hpm
    exact (Option.some_inj.mp hpm).symm
  constructor
  · rw [hasm]
    simp only [assemble]
    exact build_loop_events time_div (merged_events trs) 0 0 500000 0
  · intro i j hi hj hsame htempo hchan
    by_contra hij
    have hne' : j ≠ i := by
      intro h; subst h
      rw [htempo] at hchan
      cases hchan
    have hji : j < i := by omega
    set l := merged_events trs with hl
    set x := l.get ⟨j, hj⟩ with hx
    set y := l.get ⟨i, hi⟩ with hy
    set t := x.1 with ht
    have hyt : y.1 = t := hsame
    have hsub : List.Sublist [x, y] l := pair_sublist_of_lt l j i hj hi hji
    have hfsub : List.Sublist [x, y] (l.filter (fun p => p.1 = t)) := by
      have h1 := hsub.filter (fun p => decide (p.1 = t))
      have h2 : List.filter (fun p => decide (p.1 = t)) [x, y] = [x, y] := by
        simp [List.filter_cons, ht, hyt]
      rwa [h2] at h1
    have hfeq : l.filter (fun p => p.1 = t) =
        (tempo_merge trs).filter (fun p => p.1 = t) ++
          (channel_merge trs).filter (fun p => p.1 = t) := by
      rw [hl, merged_events, filter_insertionSort, List.filter_append]
    rw [hfeq] at hfsub
    obtain ⟨s1, s2, hxy, h1, h2⟩ := List.sublist_append_iff.mp hfsub
    have hxchan : x.2.is_tempo = false := hchan
    have hytempo : y.2.is_tempo = true := htempo
    match s1, hxy with
    | [], hxy =>
      have hs2 : s2 = [x, y] := by simpa using hxy.symm
      have hy2 : y ∈ (channel_merge trs).filter (fun p => p.1 = t) :=
        h2.subset (by simp [hs2])
      have := channel_merge_not_tempo fuel time_div tracks trs hp y (List.mem_of_mem_filter hy2)
      rw [hytempo] at this
      cases this
    | [a], hxy =>
      injection hxy with hax hs2
      subst hax
      have hx1 : x ∈ (tempo_merge trs).filter (fun p => p.1 = t) := h1.subset (by simp)
      have := tempo_merge_is_tempo trs x (List.mem_of_mem_filter hx1)
      rw [hxchan] at this
      cases this
    | a :: b :: s1', hxy =>
      injection hxy with hax hrest
      subst hax
      have hx1 : x ∈ (tempo_merge trs).filter (fun p => p.1 = t) := h1.subset (by simp)
      have := tempo_merge_is_tempo trs x (List.mem_of_mem_filter hx1)
      rw [hxchan] at this
      cases this

/-- A one-track input for the C4 witness: tempo meta 600000 at tick 0
followed by Note-On C4 at tick 0 and end-of-track. -/
def c4_bytes : List Nat :=
  [0x00, 0xFF, 0x51, 0x03, 0x09, 0x27, 0xC0, 0x00, 0x90, 0x3C, 0x64, 0x00, 0xFF, 0x2F, 0x00]

/-- The per-track result of parsing `c4_bytes`. -/
def c4_trs : List TrackEvents :=
  [⟨[(0, ⟨0x643C90, 0, false⟩)], [(0, 600000)], 1, 0⟩]

/-- The `ParsedMidi` of `c4_bytes`: the tempo change precedes the co-incident
note in the merged stream. -/
def c4_pm : ParsedMidi :=
  ⟨[⟨600000, 0, true⟩, ⟨0x643C90, 0, false⟩], [], 0, 0, 1⟩

/-- Witness for `c4_tempo_before_channel` at the concrete one-track input. -/
theorem c4_tempo_before_channel_witness :
    c4_pm.events = (merged_events c4_trs).map Prod.snd ∧
    ∀ (i j : Nat) (hi : i < (merged_events c4_trs).length)
        (hj : j < (merged_events c4_trs).length),
      ((merged_events c4_trs).get ⟨i, hi⟩).1 = ((merged_events c4_trs).get ⟨j, hj⟩).1 →
      ((merged_events c4_trs).get ⟨i, hi⟩).2.is_tempo = true →
      ((merged_events c4_trs).get ⟨j, hj⟩).2.is_tempo = false →
      i < j :=
  c4_tempo_before_channel 8 480 [mk_track c4_bytes] c4_trs c4_pm
    (by decide) (by decide) (by decide)

/-! ### C3: shape of the delta table -/

/-- The delta entries produced by the `build_loop` scan depend only on the
tick column; this function is that projection of the scan
(player.rs 175-192). -/
def deltasAux : List Nat → Nat → Nat → List (Nat × Nat)
  | [], _, _ => []
  | t :: ts, i, prev =>
    if prev < t then
      (if 0 < i then [((i - 1) % 2 ^ 32, min (t - prev) (2 ^ 32 - 1))] else [])
        ++ deltasAux ts (i + 1) t
    else deltasAux ts (i + 1) prev

theorem build_loop_deltas (time_div : Nat) :
    ∀ (l : List (Nat × Event)) (i prev bpm acc : Nat),
      (build_loop time_div l i prev bpm acc).2.1 = deltasAux (l.map Prod.fst) i prev := by
  intro l
  induction l with
  | nil => intro i prev bpm acc; rfl
  | cons p rest ih =>
    intro i prev bpm acc
    obtain ⟨tick, ev⟩ := p
    by_cases hjump : prev < tick
    · simp only [build_loop, List.map_cons, deltasAux, if_pos hjump, ih]
    · simp only [build_loop, List.map_cons, deltasAux, if_neg hjump, ih, List.nil_append]

/-- Number of strict tick advances along a run starting at `prev`: the number
of distinct tick values beyond `prev` in a sorted run. -/
def countD : Nat → List Nat → Nat
  | _, [] => 0
  | prev, t :: ts => if prev < t then 1 + countD t ts else countD prev ts

theorem deltasAux_length :
    ∀ (ts : List Nat) (i prev : Nat), 1 ≤ i →
      (deltasAux ts i prev).length = countD prev ts := by
  intro ts
  induction ts with
  | nil => intro i prev _; rfl
  | cons t ts ih =>
    intro i prev hi
    by_cases hjump : prev < t
    · rw [deltasAux, if_pos hjump, if_pos (by omega : 0 < i), countD, if_pos hjump]
      simp only [List.singleton_append, List.length_cons, ih (i + 1) t (by omega)]
      omega
    · rw [deltasAux, if_neg hjump, countD, if_neg hjump]
      exact ih _ prev (by omega)

theorem dedup_length_sorted :
    ∀ (ts : List Nat) (prev : Nat), List.Pairwise (· ≤ ·) (prev :: ts) →
      ((prev :: ts).dedup).length = 1 + countD prev ts := by
  intro ts
  induction ts with
  | nil => intro prev _; rfl
  | cons t ts ih =>
    intro prev hp
    obtain ⟨hhead, htail⟩ := List.pairwise_cons.mp hp
    have hpt : prev ≤ t := hhead t (List.mem_cons_self t ts)
    by_cases hjump : prev < t
    · have hnm : prev ∉ t :: ts := by
        intro hmem
        rcases List.mem_cons.mp hmem with rfl | hmem'
        · omega
        · have := (List.pairwise_cons.mp htail).1 prev hmem'
          omega
      rw [List.dedup_cons_of_not_mem hnm, List.length_cons, ih t htail, countD, if_pos hjump]
      omega
    · have heq : prev = t := by omega
      subst heq
      have hm : prev ∈ prev :: ts := List.mem_cons_self prev ts
      rw [List.dedup_cons_of_mem hm, ih prev htail, countD, if_neg hjump]

theorem getLastD_le_of_sorted :
    ∀ (ts : List Nat) (prev : Nat), List.Pairwise (· ≤ ·) (prev :: ts) →
      prev ≤ ts.getLastD prev := by
  intro ts
  induction ts with
  | nil => intro prev _; exact Nat.le_refl prev
  | cons t ts ih =>
    intro prev hp
    obtain ⟨hhead, htail⟩ := List.pairwise_cons.mp hp
    have h1 : prev ≤ t := hhead t (List.mem_cons_self t ts)
    have h2 : t ≤ ts.getLastD t := ih t htail
    rw [List.getLastD_cons]
    omega

theorem mem_le_getLastD_of_sorted :
    ∀ (ts : List Nat) (prev : Nat), List.Pairwise (· ≤ ·) (prev :: ts) →
      ∀ x ∈ prev :: ts, x ≤ ts.getLastD prev := by
  intro ts
  induction ts with
  | nil =>
    intro prev _ x hx
    rcases List.mem_cons.mp hx with rfl | hx'
    · exact Nat.le_refl x
    · simp at hx'
  | cons t ts ih =>
    intro prev hp x hx
    obtain ⟨hhead, htail⟩ := List.pairwise_cons.mp hp
    rw [List.getLastD_cons]
    rcases List.mem_cons.mp hx with rfl | hx'
    · have h1 : x ≤ t := hhead t (List.mem_cons_self t ts)
      have h2 : t ≤ ts.getLastD t := getLastD_le_of_sorted ts t htail
      omega
    · exact ih t htail x hx'

theorem deltasAux_sum :
    ∀ (ts : List Nat) (i prev : Nat), 1 ≤ i →
      List.Pairwise (· ≤ ·) (prev :: ts) →
      List.Chain' (fun a b => b - a < 2 ^ 32) (prev :: ts) →
      ((deltasAux ts i prev).map Prod.snd).sum = ts.getLastD prev - prev := by
  intro ts
  induction ts with
  | nil => intro i prev _ _ _; simp [deltasAux]
  | cons t ts ih =>
    intro i prev hi hp hc
    obtain ⟨hhead, htail⟩ := List.pairwise_cons.mp hp
    have hpt : prev ≤ t := hhead t (List.mem_cons_self t ts)
    have hct : List.Chain' (fun a b => b - a < 2 ^ 32) (t :: ts) := hc.tail
    have hdiff : t - prev < 2 ^ 32 := (List.chain'_cons.mp hc).1
    by_cases hjump : prev < t
    · rw [deltasAux, if_pos hjump, if_pos (by omega : 0 < i)]
      have hrec := ih (i + 1) t (by omega) htail hct
      have hlast : t ≤ ts.getLastD t := getLastD_le_of_sorted ts t htail
      have hmin : min (t - prev) (2 ^ 32 - 1) = t - prev := by omega
      simp only [List.singleton_append, List.map_cons, List.sum_cons, hrec, hmin,
        List.getLastD_cons]
      omega
    · have heq : prev = t := by omega
      rw [deltasAux, if_neg hjump, List.getLastD_cons]
      subst heq
      exact ih (i + 1) prev (by omega) htail hct

theorem deltasAux_indices :
    ∀ (ts : List Nat) (i prev : Nat), 1 ≤ i → i + ts.length ≤ 2 ^ 32 →
      List.Pairwise (fun a b => a.1 < b.1) (deltasAux ts i prev) ∧
      ∀ p ∈ deltasAux ts i prev, i - 1 ≤ p.1 ∧ p.1 + 2 ≤ i + ts.length := by
  intro ts
  induction ts with
  | nil => intro i prev _ _; exact ⟨List.Pairwise.nil, by intro p hp; simp [deltasAux] at hp⟩
  | cons t ts ih =>
    intro i prev hi hbound
    have hlen : (t :: ts).length = ts.length + 1 := rfl
    have hrec := ih (i + 1) t (by omega) (by omega)
    have hrec' := ih (i + 1) prev (by omega) (by omega)
    by_cases hjump : prev < t
    · rw [deltasAux, if_pos hjump, if_pos (by omega : 0 < i)]
      have hmod : (i - 1) % 2 ^ 32 = i - 1 := Nat.mod_eq_of_lt (by omega)
      rw [List.singleton_append]
      constructor
      · refine List.pairwise_cons.mpr ⟨?_, hrec.1⟩
        intro q hq
        have := (hrec.2 q hq).1
        simp only [hmod]
        omega
      · intro p hp
        rcases List.mem_cons.mp hp with rfl | hp'
        · simp only [hmod]
          omega
        · have := hrec.2 p hp'
          omega
    · rw [deltasAux, if_neg hjump]
      refine ⟨hrec'.1, ?_⟩
      intro p hp
      have := hrec'.2 p hp
      omega

theorem deltasAux_naming :
    ∀ (ts : List Nat) (i prev : Nat) (T : List Nat), 1 ≤ i →
      T.drop (i - 1) = prev :: ts →
      List.Pairwise (· ≤ ·) (prev :: ts) →
      List.Chain' (fun a b => b - a < 2 ^ 32) (prev :: ts) →
      i + ts.length ≤ 2 ^ 32 →
      ∀ p ∈ deltasAux ts i prev, ∃ a b,
        T[p.1]? = some a ∧ T[p.1 + 1]? = some b ∧ a < b ∧ p.2 = b - a := by
  intro ts
  induction ts with
  | nil => intro i prev T _ _ _ _ _ p hp; simp [deltasAux] at hp
  | cons t ts ih =>
    intro i prev T hi hdrop hp hc hbound
    obtain ⟨hhead, htail⟩ := List.pairwise_cons.mp hp
    have hpt : prev ≤ t := hhead t (List.mem_cons_self t ts)
    have hdiff : t - prev < 2 ^ 32 := (List.chain'_cons.mp hc).1
    have hlen : (t :: ts).length = ts.length + 1 := rfl
    have hdrop' : T.drop i = t :: ts := by
      have h1 : T.drop (i - 1 + 1) = (T.drop (i - 1)).drop 1 := by
        rw [← List.drop_drop]
      have h2 : i - 1 + 1 = i := by omega
      rw [← h2, h1, hdrop]
      rfl
    by_cases hjump : prev < t
    · intro p hp'
      rw [deltasAux, if_pos hjump, if_pos (by omega : 0 < i), List.singleton_append] at hp'
      have hmod : (i - 1) % 2 ^ 32 = i - 1 := Nat.mod_eq_of_lt (by omega)
      rcases List.mem_cons.mp hp' with rfl | hmem
      · simp only [hmod]
        refine ⟨prev, t, ?_, ?_, hjump, ?_⟩
        · have := List.getElem?_drop T (i - 1) 0
          rw [hdrop] at this
          simpa using this.symm
        · have := List.getElem?_drop T (i - 1) 1
          rw [hdrop] at this
          simpa using this.symm
        · omega
      · exact ih (i + 1) t T (by omega) (by simpa using hdrop') htail hc.tail (by omega) p hmem
    · intro p hp'
      rw [deltasAux, if_neg hjump] at hp'
      have heq : prev = t := by omega
      subst heq
      exact ih (i + 1) prev T (by omega) (by simpa using hdrop') htail hc.tail (by omega) p hp'

theorem deltasAux_zero (t : Nat) (ts : List Nat) :
    deltasAux (t :: ts) 0 0 = deltasAux ts 1 t := by
  by_cases h : 0 < t
  · rw [deltasAux, if_pos h]
    simp
  · have ht : t = 0 := by omega
    subst ht
    rw [deltasAux, if_neg (by omega)]

/-- From a successful parse, the produced `ParsedMidi` is the assembly of the
per-track results. -/
theorem parse_eq_assemble (fuel time_div : Nat) (tracks : List TrackData)
    (trs : List TrackEvents) (pm : ParsedMidi)
    (hp : parse_all_tracks fuel time_div tracks = some trs)
    (hne : tracks ≠ [])
    (hpm : parse_midi_events fuel tracks time_div = some pm) :
    pm = assemble time_div trs := by
  rw [parse_midi_events, if_neg hne, hp] at hpm
  exact (Option.some_inj.mp hpm).symm

/-- The merged stream is sorted by tick. -/
theorem merged_events_sorted (trs : List TrackEvents) :
    List.Pairwise (· ≤ ·) ((merged_events trs).map Prod.fst) := by
  have h : List.Sorted tickLE (merged_events trs) :=
    List.sorted_insertionSort tickLE (tempo_merge trs ++ channel_merge trs)
  exact List.pairwise_map.mpr h

/-- C3, amended: for a parse-produced stream whose merged event list has at
most `2 ^ 32` events (so that the `(i - 1) as u32` cast at player.rs 180 does
not wrap) and all adjacent inter-tick differences below `2 ^ 32`, the delta
table has exactly K−1 entries for K distinct tick values, its indices are
strictly increasing, each entry's index names the last event before a tick
advance (the event at the index has a strictly smaller tick than its
successor, and the entry's value is that tick difference), and the values sum
to max tick − min tick (for the sorted stream: last minus first). -/
theorem c3_delta_table (fuel time_div : Nat) (tracks : List TrackData)
    (trs : List TrackEvents) (pm : ParsedMidi)
    (hp : parse_all_tracks fuel time_div tracks = some trs)
    (hne : tracks ≠ [])
    (hpm : parse_midi_events fuel tracks time_div = some pm)
    (hdiff : List.Chain' (fun a b => b - a < 2 ^ 32) ((merged_events trs).map Prod.fst))
    (hlen : (merged_events trs).length ≤ 2 ^ 32) :
    pm.deltas.length = ((merged_events trs).map Prod.fst).dedup.length - 1 ∧
    List.Pairwise (fun a b => a.1 < b.1) pm.deltas ∧
    (pm.deltas.map Prod.snd).sum =
      ((merged_events trs).map Prod.fst).getLastD 0 -
        ((merged_events trs).map Prod.fst).headD 0 ∧
    (∀ x ∈ (merged_events trs).map Prod.fst,
      ((merged_events trs).map Prod.fst).headD 0 ≤ x ∧
        x ≤ ((merged_events trs).map Prod.fst).getLastD 0) ∧
    ∀ p ∈ pm.deltas, ∃ a b,
      ((merged_events trs).map Prod.fst)[p.1]? = some a ∧
      ((merged_events trs).map Prod.fst)[p.1 + 1]? = some b ∧
      a < b ∧ p.2 = b - a := by
  have hasm := parse_eq_assemble fuel time_div tracks trs pm hp hne hpm
  have hdeltas : pm.deltas = deltasAux ((merged_events trs).map Prod.fst) 0 0 := by
    rw [hasm]
    simp only [assemble]
    exact build_loop_deltas time_div (merged_events trs) 0 0 500000 0
  have hsorted := merged_events_sorted trs
  match hmerged : (merged_events trs).map Prod.fst with
  | [] =>
    rw [hdeltas, hmerged]
    refine ⟨rfl, List.Pairwise.nil, rfl, ?_, ?_⟩
    · intro x hx; simp at hx
    · intro p hp'; simp [deltasAux] at hp'
  | t :: ts =>
    rw [hmerged] at hsorted hdiff
    have hlen' : ts.length + 1 ≤ 2 ^ 32 := by
      have : ((merged_events trs).map Prod.fst).length = (merged_events trs).length := by
        simp
      rw [hmerged] at this
      simp at this
      omega
    rw [hdeltas, hmerged, deltasAux_zero]
    refine ⟨?_, ?_, ?_, ?_, ?_⟩
    · rw [deltasAux_length ts 1 t (Nat.le_refl 1), dedup_length_sorted ts t hsorted]
      omega
    · exact (deltasAux_indices ts 1 t (Nat.le_refl 1) (by omega)).1
    · rw [deltasAux_sum ts 1 t (Nat.le_refl 1) hsorted hdiff,
        List.getLastD_cons, List.headD_cons]
    · intro x hx
      obtain ⟨hhead, htail⟩ := List.pairwise_cons.mp hsorted
      constructor
      · simp only [List.headD_cons]
        rcases List.mem_cons.mp hx with rfl | hx'
        · exact Nat.le_refl x
        · exact hhead x hx'
      · simp only [List.getLastD_cons]
        exact mem_le_getLastD_of_sorted ts t hsorted x hx
    · exact deltasAux_naming ts 1 t (t :: ts) (Nat.le_refl 1) rfl hsorted hdiff (by omega)

/-- A tick-sorted stream of `2 ^ 32 + 2` channel events at consecutive ticks
0, 1, 2, …: every inter-tick difference is 1, yet the event count exceeds the
`u32` index space. -/
def c3_big_stream : List (Nat × Event) :=
  (List.range (2 ^ 32 + 2)).map fun k => (k, ⟨0, 0, false⟩)

theorem deltasAux_consec :
    ∀ (m t i : Nat), 1 ≤ t → 1 ≤ i →
      deltasAux ((List.range m).map (t + ·)) i (t - 1) =
        (List.range m).map fun k => ((i - 1 + k) % 2 ^ 32, 1) := by
  intro m
  induction m with
  | zero => intro t i _ _; rfl
  | succ m ih =>
    intro t i ht hi
    rw [List.range_succ_eq_map]
    simp only [List.map_cons, List.map_map, Nat.add_zero]
    have hf1 : ((t + ·) ∘ Nat.succ) = ((t + 1) + ·) := funext fun k => by
      simp [Function.comp]
      omega
    have hf2 : ((fun k => ((i - 1 + k) % 2 ^ 32, 1)) ∘ Nat.succ)
        = fun k => ((i + k) % 2 ^ 32, (1 : Nat)) := funext fun k => by
      simp [Function.comp]
      omega
    rw [hf1, hf2, deltasAux, if_pos (by omega : t - 1 < t), if_pos (by omega : 0 < i)]
    have hone : min (t - (t - 1)) (2 ^ 32 - 1) = 1 := by
      have h1 : t - (t - 1) = 1 := by omega
      rw [h1]
      have : (1 : Nat) ≤ 2 ^ 32 - 1 := by norm_num
      omega
    have hrec := ih (t + 1) (i + 1) (by omega) (by omega)
    simp only [Nat.add_sub_cancel] at hrec
    rw [hone, hrec, List.singleton_append]

theorem c3_big_ticks : c3_big_stream.map Prod.fst = List.range (2 ^ 32 + 2) := by
  rw [c3_big_stream, List.map_map]
  have hf : (Prod.fst ∘ fun k => ((k, ⟨0, 0, false⟩) : Nat × Event)) = fun k => k := rfl
  rw [hf]
  exact List.map_id' _

theorem c3_big_deltas :
    (build_loop 480 c3_big_stream 0 0 500000 0).2.1 =
      (List.range (2 ^ 32 + 1)).map fun k => (k % 2 ^ 32, 1) := by
  rw [build_loop_deltas, c3_big_ticks]
  rw [show (2 ^ 32 + 2) = (2 ^ 32 + 1) + 1 from rfl, List.range_succ_eq_map]
  rw [deltasAux, if_neg (by omega)]
  have hsucc : List.map Nat.succ (List.range (2 ^ 32 + 1))
      = (List.range (2 ^ 32 + 1)).map (1 + ·) :=
    List.map_congr_left fun k _ => by omega
  rw [hsucc]
  have := deltasAux_consec (2 ^ 32 + 1) 1 1 (Nat.le_refl 1) (Nat.le_refl 1)
  simpa using this

/-- C3, counterexample: a tick-sorted stream of `2 ^ 32 + 2` events at
consecutive ticks (all inter-tick differences equal to 1, well below
`2 ^ 32`) produces a delta table whose stored `u32` indices are *not*
strictly increasing: the entry at position `2 ^ 32` stores index
`2 ^ 32 % 2 ^ 32 = 0`, below the previous entry's `2 ^ 32 − 1`, because
`(i - 1) as u32` (player.rs 180) wraps once the event index exceeds the u32
range. -/
theorem c3_counterexample :
    List.Pairwise tickLE c3_big_stream ∧
    List.Chain' (fun a b => b - a < 2 ^ 32) (c3_big_stream.map Prod.fst) ∧
    ¬ List.Pairwise (fun a b => a.1 < b.1) (build_loop 480 c3_big_stream 0 0 500000 0).2.1 := by
  refine ⟨?_, ?_, ?_⟩
  · have h := List.pairwise_lt_range (2 ^ 32 + 2)
    have h' : List.Pairwise (fun a b : Nat => a ≤ b) (List.range (2 ^ 32 + 2)) :=
      h.imp Nat.le_of_lt
    exact List.pairwise_map.mpr (by
      simpa [c3_big_stream, tickLE] using List.pairwise_map.mp
        (List.pairwise_map.mpr (h'.imp fun hab => hab) :
          List.Pairwise (· ≤ ·) ((List.range (2 ^ 32 + 2)).map id)))
  · rw [c3_big_ticks]
    rw [show (2 ^ 32 + 2) = (2 ^ 32 + 1) + 1 from rfl]
    rw [List.chain'_range_succ]
    intro m _
    omega
  · rw [c3_big_deltas]
    intro hpw
    have hlen : ((List.range (2 ^ 32 + 1)).map fun k => (k % 2 ^ 32, (1 : Nat))).length
        = 2 ^ 32 + 1 := by simp
    have h := List.pairwise_iff_getElem.mp hpw (2 ^ 32 - 1) (2 ^ 32)
      (by rw [hlen]; omega) (by rw [hlen]; omega) (by omega)
    simp only [List.getElem_map, List.getElem_range] at h
    rw [Nat.mod_self, Nat.mod_eq_of_lt (by omega)] at h
    omega

/-- The per-track results of the two-track end-to-end input, for the C3
witness. -/
def c3w_trs : List TrackEvents :=
  [⟨[(0, ⟨0x643C90, 0, false⟩)], [], 1, 0⟩, ⟨[(480, ⟨0x503E90, 1, false⟩)], [], 1, 480⟩]

/-- The `ParsedMidi` of the two-track end-to-end input, for the C3 witness. -/
def c3w_pm : ParsedMidi :=
  ⟨[⟨0x643C90, 0, false⟩, ⟨0x503E90, 1, false⟩], [(0, 480)], 480, 500000000, 2⟩

/-- Witness for `c3_delta_table` at the two-track end-to-end input: the merged
stream has ticks 0 and 480, so K = 2, one delta entry at index 0 with value
480 = 480 − 0. -/
theorem c3_delta_table_witness :
    c3w_pm.deltas.length = ((merged_events c3w_trs).map Prod.fst).dedup.length - 1 ∧
    List.Pairwise (fun a b => a.1 < b.1) c3w_pm.deltas ∧
    (c3w_pm.deltas.map Prod.snd).sum =
      ((merged_events c3w_trs).map Prod.fst).getLastD 0 -
        ((merged_events c3w_trs).map Prod.fst).headD 0 := by
  have hm : (merged_events c3w_trs).map Prod.fst = [0, 480] := by decide
  have h := c3_delta_table 8 480 [c1_track_a, c1_track_b] c3w_trs c3w_pm
    (by decide) (by decide) (by decide)
    (by rw [hm]; exact List.chain'_cons.mpr ⟨by norm_num, List.chain'_singleton _⟩)
    (by
      have : (merged_events c3w_trs).length = 2 := by decide
      rw [this]
      norm_num)
  exact ⟨h.1, h.2.1, h.2.2.1⟩

/-! ### C6: running status round-trips -/

/-- Bytes of a complete variable-length quantity: nonempty, every byte but the
last has the continuation bit set, the last does not. -/
def IsVarint (vb : List Nat) : Prop :=
  vb ≠ [] ∧ (∀ b ∈ vb.dropLast, 128 ≤ b % 256) ∧ vb.getLastD 0 % 256 < 128

/-- The value `decode_variable_length` computes from a complete variable-length
quantity. -/
def vval (vb : List Nat) : Nat :=
  vb.foldl (fun a b => (a * 128 + b % 256 % 128) % 2 ^ 32) 0

/-- Number of data bytes of a channel-message status: 1 for program change and
channel pressure, 2 otherwise. -/
def arity (s : Nat) : Nat := if 0xC0 ≤ s ∧ s ≤ 0xDF then 1 else 2

/-- One message in the fully status-prefixed encoding: delta bytes, status,
data bytes. -/
def enc_msg_full (s : Nat) (m : List Nat × List Nat) : List Nat := m.1 ++ s :: m.2

/-- One message with its status omitted (running status): delta bytes then
data bytes. -/
def enc_msg_run (m : List Nat × List Nat) : List Nat := m.1 ++ m.2

/-- A track in which every channel message carries its status byte. -/
def encodeFull (s : Nat) (msgs : List (List Nat × List Nat)) : List Nat :=
  (msgs.map (enc_msg_full s)).flatten

/-- A track encoded entirely with running status: only the first message
carries the status byte. -/
def encodeRun (s : Nat) (msgs : List (List Nat × List Nat)) : List Nat :=
  match msgs with
  | [] => []
  | m :: rest => m.1 ++ s :: m.2 ++ (rest.map enc_msg_run).flatten

/-- The decode cycle driven `n` times: capture the tick, decode one
command/message (exactly as the `parse_single_track` loop does), record
`(tick, message)`, advance the tick. -/
def decodeN : Nat → TrackData → List (Nat × Nat)
  | 0, _ => []
  | n + 1, td =>
    let td1 := update_message (update_command td)
    (td.tick, td1.message) :: decodeN n (update_tick td1)

theorem getD_shift (pre l : List Nat) (k : Nat) :
    (pre ++ l).getD (pre.length + k) 0 = l.getD k 0 := by
  rw [List.getD_eq_getElem?_getD, List.getD_eq_getElem?_getD,
    List.getElem?_append_right (by omega)]
  congr 2
  omega

theorem decode_vl_aux_varint :
    ∀ (vb pre rest : List Nat) (acc : Nat) (td : TrackData) (fuel : Nat),
      td.data = pre ++ vb ++ rest → td.offset = pre.length → td.length = td.data.length →
      (∀ b ∈ vb.dropLast, 128 ≤ b % 256) → vb.getLastD 0 % 256 < 128 →
      vb ≠ [] → vb.length ≤ fuel →
      decode_variable_length_aux fuel td acc =
        (vb.foldl (fun a b => (a * 128 + b % 256 % 128) % 2 ^ 32) acc,
         { td with offset := pre.length + vb.length }) := by
  intro vb
  induction vb with
  | nil => intro pre rest acc td fuel _ _ _ _ _ hne; exact absurd rfl hne
  | cons b vb ih =>
    intro pre rest acc td fuel hdata hoff hlen hdrop hlast _ hfuel
    obtain ⟨fuel, rfl⟩ : ∃ f, fuel = f + 1 := ⟨fuel - 1, by simp at hfuel; omega⟩
    rw [decode_variable_length_aux]
    have hinb : td.offset < td.length := by
      rw [hoff, hlen, hdata]
      simp only [List.length_append, List.length_cons]
      omega
    rw [if_pos hinb]
    have hbyte : td.data.getD td.offset 0 = b := by
      rw [hdata, hoff, show pre.length = pre.length + 0 from rfl, List.append_assoc,
        getD_shift]
      rfl
    match vb, hdrop, hlast with
    | [], hdrop, hlast =>
      have hlast' : b % 256 < 128 := by simpa using hlast
      rw [if_neg (by rw [hbyte]; omega)]
      rw [hbyte, hoff]
      rfl
    | b' :: vb', hdrop, hlast =>
      have hb : 128 ≤ b % 256 := by
        apply hdrop
        simp [List.dropLast_cons_of_ne_nil]
      rw [if_pos (by rw [hbyte]; omega)]
      have := ih (pre ++ [b]) rest ((acc * 128 + b % 256 % 128) % 2 ^ 32)
        { td with offset := td.offset + 1 } fuel
        (by rw [hdata]; simp) (by simp [hoff]) (by simp [hlen])
        (by intro x hx; exact hdrop x (by simp [List.dropLast_cons_of_ne_nil] at hx ⊢; tauto))
        (by simpa [List.getLastD_cons] using hlast) (by simp) (by simp at hfuel ⊢; omega)
      rw [hbyte, this]
      simp only [Prod.mk.injEq, List.foldl_cons, TrackData.mk.injEq, List.length_append,
        List.length_cons, List.length_nil, List.length_singleton]
      refine ⟨trivial, trivial, trivial, trivial, by omega, trivial, trivial, trivial, trivial⟩

theorem decode_varint (pre vb rest : List Nat) (td : TrackData)
    (hdata : td.data = pre ++ vb ++ rest) (hoff : td.offset = pre.length)
    (hlen : td.length = td.data.length) (hv : IsVarint vb) :
    decode_variable_length td =
      (vval vb, { td with offset := pre.length + vb.length }) := by
  obtain ⟨hne, hdrop, hlast⟩ := hv
  rw [decode_variable_length]
  exact decode_vl_aux_varint vb pre rest 0 td (td.length - td.offset) hdata hoff hlen
    hdrop hlast hne (by rw [hoff, hlen, hdata]; simp only [List.length_append]; omega)

theorem update_tick_varint (pre vb rest : List Nat) (td : TrackData)
    (hdata : td.data = pre ++ vb ++ rest) (hoff : td.offset = pre.length)
    (hlen : td.length = td.data.length) (hv : IsVarint vb) :
    update_tick td =
      { td with offset := pre.length + vb.length,
                tick := (td.tick + vval vb) % 2 ^ 64 } := by
  rw [update_tick, decode_varint pre vb rest td hdata hoff hlen hv]

theorem update_tick_end (td : TrackData) (h : td.length ≤ td.offset) :
    update_tick td = { td with tick := (td.tick + 0) % 2 ^ 64 } := by
  rw [update_tick, decode_variable_length]
  have : td.length - td.offset = 0 := by omega
  rw [this, decode_variable_length_aux]

theorem update_command_status (pre rest : List Nat) (s : Nat) (td : TrackData)
    (hdata : td.data = pre ++ s :: rest) (hoff : td.offset = pre.length)
    (hlen : td.length = td.data.length) (hs1 : 128 ≤ s) (hs2 : s < 256) :
    update_command td =
      { td with offset := td.offset + 1, message := s, last_status := some s } := by
  have hnb : ¬ td.length ≤ td.offset := by
    rw [hoff, hlen, hdata]
    simp only [List.length_append, List.length_cons]
    omega
  have hbyte : td.data.getD td.offset 0 % 256 = s := by
    rw [hdata, hoff, show pre.length = pre.length + 0 from rfl, getD_shift]
    simp [Nat.mod_eq_of_lt hs2]
  rw [update_command, if_neg hnb]
  simp only [hbyte, if_pos hs1]

theorem update_command_running (pre rest : List Nat) (d s : Nat) (td : TrackData)
    (hdata : td.data = pre ++ d :: rest) (hoff : td.offset = pre.length)
    (hlen : td.length = td.data.length) (hd : d < 128) (hst : td.last_status = some s) :
    update_command td = { td with message := s } := by
  have hnb : ¬ td.length ≤ td.offset := by
    rw [hoff, hlen, hdata]
    simp only [List.length_append, List.length_cons]
    omega
  have hbyte : td.data.getD td.offset 0 % 256 = d := by
    rw [hdata, hoff, show pre.length = pre.length + 0 from rfl, getD_shift]
    simp [Nat.mod_eq_of_lt (by omega : d < 256)]
  rw [update_command, if_neg hnb]
  simp only [hbyte, if_neg (by omega : ¬ 128 ≤ d), hst]

theorem update_message_two (pre rest : List Nat) (d1 d2 : Nat) (td : TrackData)
    (hdata : td.data = pre ++ d1 :: d2 :: rest) (hoff : td.offset = pre.length)
    (hlen : td.length = td.data.length)
    (hclass : td.message % 256 ≤ 0xBF ∨ (0xE0 ≤ td.message % 256 ∧ td.message % 256 ≤ 0xEF)) :
    update_message td =
      { td with temp := (d1 % 256) * 2 ^ 8 + (d2 % 256) * 2 ^ 16,
                offset := td.offset + 2,
                message := td.message ||| ((d1 % 256) * 2 ^ 8 + (d2 % 256) * 2 ^ 16) } := by
  have hnb : ¬ td.length ≤ td.offset := by
    rw [hoff, hlen, hdata]
    simp only [List.length_append, List.length_cons]
    omega
  have hin2 : td.offset + 2 ≤ td.length := by
    rw [hoff, hlen, hdata]
    simp only [List.length_append, List.length_cons]
    omega
  have hb1 : td.data.getD td.offset 0 = d1 := by
    rw [hdata, hoff, show pre.length = pre.length + 0 from rfl, getD_shift]
    rfl
  have hb2 : td.data.getD (td.offset + 1) 0 = d2 := by
    rw [hdata, hoff, getD_shift]
    rfl
  rw [update_message, if_neg hnb]
  simp only [if_pos hclass, if_pos hin2, hb1, hb2]

theorem update_message_one (pre rest : List Nat) (d1 : Nat) (td : TrackData)
    (hdata : td.data = pre ++ d1 :: rest) (hoff : td.offset = pre.length)
    (hlen : td.length = td.data.length)
    (hclass : 0xC0 ≤ td.message % 256 ∧ td.message % 256 ≤ 0xDF) :
    update_message td =
      { td with temp := (d1 % 256) * 2 ^ 8,
                offset := td.offset + 1,
                message := td.message ||| ((d1 % 256) * 2 ^ 8) } := by
  have hnb : ¬ td.length ≤ td.offset := by
    rw [hoff, hlen, hdata]
    simp only [List.length_append, List.length_cons]
    omega
  have hin1 : td.offset < td.length := by omega
  have hb1 : td.data.getD td.offset 0 = d1 := by
    rw [hdata, hoff, show pre.length = pre.length + 0 from rfl, getD_shift]
    rfl
  have hnclass : ¬ (td.message % 256 ≤ 0xBF ∨
      (0xE0 ≤ td.message % 256 ∧ td.message % 256 ≤ 0xEF)) := by omega
  rw [update_message, if_neg hnb]
  simp only [if_neg hnclass, if_pos hclass, if_pos hin1, hb1]

/-- The `temp` word assembled from a channel message's data bytes. -/
def tempOf : List Nat → Nat
  | [d1, d2] => (d1 % 256) * 2 ^ 8 + (d2 % 256) * 2 ^ 16
  | [d1] => (d1 % 256) * 2 ^ 8
  | _ => 0

theorem decode_cycle_status (pre tail m2 : List Nat) (s : Nat) (td : TrackData)
    (hdata : td.data = pre ++ s :: m2 ++ tail) (hoff : td.offset = pre.length)
    (hlen : td.length = td.data.length) (hs1 : 128 ≤ s) (hs2 : s < 0xF0)
    (hmlen : m2.length = arity s) :
    update_message (update_command td) =
      { td with offset := pre.length + 1 + m2.length,
                message := s ||| tempOf m2, temp := tempOf m2,
                last_status := some s } := by
  have hcmd := update_command_status pre (m2 ++ tail) s td (by rw [hdata]; simp) hoff hlen
    hs1 (by omega)
  by_cases hcl : 0xC0 ≤ s ∧ s ≤ 0xDF
  · rw [arity, if_pos hcl] at hmlen
    obtain ⟨d1, rfl⟩ := List.length_eq_one.mp hmlen
    rw [hcmd]
    have := update_message_one (pre ++ [s]) tail d1
      { td with offset := td.offset + 1, message := s, last_status := some s }
      (by simp [hdata]) (by simp [hoff]) (by simp [hlen])
      (by
        show 0xC0 ≤ s % 256 ∧ s % 256 ≤ 0xDF
        rw [Nat.mod_eq_of_lt (by omega : s < 256)]
        exact hcl)
    rw [this, hoff]
    rfl
  · rw [arity, if_neg hcl] at hmlen
    obtain ⟨d1, d2, rfl⟩ := List.length_eq_two.mp hmlen
    rw [hcmd]
    have := update_message_two (pre ++ [s]) tail d1 d2
      { td with offset := td.offset + 1, message := s, last_status := some s }
      (by simp [hdata]) (by simp [hoff]) (by simp [hlen])
      (by
        show s % 256 ≤ 0xBF ∨ (0xE0 ≤ s % 256 ∧ s % 256 ≤ 0xEF)
        rw [Nat.mod_eq_of_lt (by omega : s < 256)]
        omega)
    rw [this, hoff]
    rfl

theorem decode_cycle_running (pre tail m2 : List Nat) (s : Nat) (td : TrackData)
    (hdata : td.data = pre ++ m2 ++ tail) (hoff : td.offset = pre.length)
    (hlen : td.length = td.data.length) (hs1 : 128 ≤ s) (hs2 : s < 0xF0)
    (hst : td.last_status = some s)
    (hmlen : m2.length = arity s) (hmdat : ∀ b ∈ m2, b < 128) :
    update_message (update_command td) =
      { td with offset := pre.length + m2.length,
                message := s ||| tempOf m2, temp := tempOf m2 } := by
  by_cases hcl : 0xC0 ≤ s ∧ s ≤ 0xDF
  · rw [arity, if_pos hcl] at hmlen
    obtain ⟨d1, rfl⟩ := List.length_eq_one.mp hmlen
    have hcmd := update_command_running pre tail d1 s td (by simpa using hdata) hoff hlen
      (hmdat d1 (by simp)) hst
    rw [hcmd]
    have := update_message_one pre tail d1 { td with message := s }
      (by simpa using hdata) hoff hlen
      (by
        show 0xC0 ≤ s % 256 ∧ s % 256 ≤ 0xDF
        rw [Nat.mod_eq_of_lt (by omega : s < 256)]
        exact hcl)
    rw [this, hoff]
    rfl
  · rw [arity, if_neg hcl] at hmlen
    obtain ⟨d1, d2, rfl⟩ := List.length_eq_two.mp hmlen
    have hcmd := update_command_running pre (d2 :: tail) d1 s td (by simpa using hdata) hoff
      hlen (hmdat d1 (by simp)) hst
    rw [hcmd]
    have := update_message_two pre tail d1 d2 { td with message := s }
      (by simpa using hdata) hoff hlen
      (by
        show s % 256 ≤ 0xBF ∨ (0xE0 ≤ s % 256 ∧ s % 256 ≤ 0xEF)
        rw [Nat.mod_eq_of_lt (by omega : s < 256)]
        omega)
    rw [this, hoff]
    rfl

/-- Remaining bytes of the status-prefixed encoding at a message boundary
(the current message's delta already consumed). -/
def remFull (s : Nat) : List (List Nat × List Nat) → List Nat
  | [] => []
  | m :: rest => s :: m.2 ++ encodeFull s rest

/-- Remaining bytes of the running-status encoding at a message boundary. -/
def remRun : List (List Nat × List Nat) → List Nat
  | [] => []
  | m :: rest => m.2 ++ (rest.map enc_msg_run).flatten

theorem c6_loop :
    ∀ (ms : List (List Nat × List Nat)) (s : Nat) (tdF tdR : TrackData)
      (preF preR : List Nat),
      128 ≤ s → s < 0xF0 →
      (∀ m ∈ ms, IsVarint m.1 ∧ m.2.length = arity s ∧ ∀ b ∈ m.2, b < 128) →
      tdF.data = preF ++ remFull s ms → tdF.offset = preF.length →
      tdF.length = tdF.data.length →
      tdR.data = preR ++ remRun ms → tdR.offset = preR.length →
      tdR.length = tdR.data.length →
      tdR.last_status = some s → tdF.tick = tdR.tick →
      decodeN ms.length tdF = decodeN ms.length tdR := by
  intro ms
  induction ms with
  | nil => intro s tdF tdR preF preR _ _ _ _ _ _ _ _ _ _ _; rfl
  | cons m rest ih =>
    intro s tdF tdR preF preR hs1 hs2 hm hFdata hFoff hFlen hRdata hRoff hRlen hRst hticks
    obtain ⟨hmv, hmlen, hmdat⟩ := hm m (List.mem_cons_self m rest)
    have hF1 := decode_cycle_status preF (encodeFull s rest) m.2 s tdF
      (by rw [hFdata]; simp [remFull]) hFoff hFlen hs1 hs2 hmlen
    have hR1 := decode_cycle_running preR ((rest.map enc_msg_run).flatten) m.2 s tdR
      (by rw [hRdata]; simp [remRun]) hRoff hRlen hs1 hs2 hRst hmlen hmdat
    simp only [show (m :: rest).length = rest.length + 1 from rfl, decodeN]
    rw [hF1, hR1]
    refine congrArg₂ List.cons (by rw [hticks]) ?_
    match rest, hm with
    | [], _ => rfl
    | r :: rest', hm =>
      obtain ⟨hrv, _, _⟩ := hm r (by simp)
      have hFtick := update_tick_varint (preF ++ s :: m.2) r.1 (remFull s (r :: rest'))
        { tdF with offset := preF.length + 1 + m.2.length,
                   message := s ||| tempOf m.2, temp := tempOf m.2,
                   last_status := some s }
        (by
          show tdF.data = (preF ++ s :: m.2) ++ r.1 ++ remFull s (r :: rest')
          rw [hFdata]
          simp [remFull, encodeFull, enc_msg_full])
        (by simp only [List.length_append, List.length_cons]; try omega)
        (by rw [hFlen]) hrv
      have hRtick := update_tick_varint (preR ++ m.2) r.1 (remRun (r :: rest'))
        { tdR with offset := preR.length + m.2.length,
                   message := s ||| tempOf m.2, temp := tempOf m.2 }
        (by
          show tdR.data = (preR ++ m.2) ++ r.1 ++ remRun (r :: rest')
          rw [hRdata]
          simp [remRun, enc_msg_run])
        (by simp only [List.length_append, List.length_cons]; try omega)
        (by rw [hRlen]) hrv
      rw [hFtick, hRtick]
      exact ih s _ _ (preF ++ s :: m.2 ++ r.1) (preR ++ m.2 ++ r.1)
        hs1 hs2 (fun x hx => hm x (by simp [hx]))
        (by simp [hFdata, remFull, encodeFull, enc_msg_full]) (by simp; try omega)
        (by simp [hFlen]) (by simp [hRdata, remRun, enc_msg_run]) (by simp; try omega)
        (by simp [hRlen]) hRst (by simp [hticks])

/-- C6: decoding a track encoded entirely with running status (every channel
message after the first omitting its status byte) yields exactly the same
sequence of decoded `(tick, message)` pairs — same status and data bytes at
the same ticks — as decoding the fully status-prefixed equivalent.  `s` is any
channel-message status (`0x80 ≤ s < 0xF0`), each message is a delta-time (any
complete variable-length quantity) plus the correct number of data bytes for
the status class. -/
theorem c6_running_status_round_trip (s : Nat) (msgs : List (List Nat × List Nat))
    (hs1 : 0x80 ≤ s) (hs2 : s < 0xF0)
    (hm : ∀ m ∈ msgs, IsVarint m.1 ∧ m.2.length = arity s ∧ ∀ b ∈ m.2, b < 128) :
    decodeN msgs.length (mk_track (encodeRun s msgs)) =
      decodeN msgs.length (mk_track (encodeFull s msgs)) := by
  match msgs, hm with
  | [], _ => rfl
  | m :: rest, hm =>
    obtain ⟨hmv, hmlen, hmdat⟩ := hm m (List.mem_cons_self m rest)
    have hFenc : encodeFull s (m :: rest) = m.1 ++ remFull s (m :: rest) := by
      simp [encodeFull, enc_msg_full, remFull]
    have hRenc : encodeRun s (m :: rest) = m.1 ++ (s :: m.2 ++ (rest.map enc_msg_run).flatten) := by
      simp [encodeRun]
    have hFtick := update_tick_varint [] m.1 (remFull s (m :: rest))
      ⟨encodeFull s (m :: rest), [], 0, 0, (encodeFull s (m :: rest)).length, 0, 0, none⟩
      (by simpa using hFenc) rfl rfl hmv
    have hRtick := update_tick_varint [] m.1 (s :: m.2 ++ (rest.map enc_msg_run).flatten)
      ⟨encodeRun s (m :: rest), [], 0, 0, (encodeRun s (m :: rest)).length, 0, 0, none⟩
      (by simpa using hRenc) rfl rfl hmv
    rw [mk_track, mk_track, hFtick, hRtick]
    -- both sides now sit at the first message's status byte with equal ticks
    simp only [show (m :: rest).length = rest.length + 1 from rfl, decodeN]
    have hF1 := decode_cycle_status m.1 (encodeFull s rest) m.2 s
      { data := encodeFull s (m :: rest), long_msg := [], tick := (0 + vval m.1) % 2 ^ 64,
        offset := ([] : List Nat).length + m.1.length,
        length := (encodeFull s (m :: rest)).length,
        message := 0, temp := 0, last_status := none }
      (by
        show encodeFull s (m :: rest) = m.1 ++ s :: m.2 ++ encodeFull s rest
        simp [encodeFull, enc_msg_full])
      (by simp) (by simp) (by omega) hs2 hmlen
    have hR1 := decode_cycle_status m.1 ((rest.map enc_msg_run).flatten) m.2 s
      { data := encodeRun s (m :: rest), long_msg := [], tick := (0 + vval m.1) % 2 ^ 64,
        offset := ([] : List Nat).length + m.1.length,
        length := (encodeRun s (m :: rest)).length,
        message := 0, temp := 0, last_status := none }
      (by
        show encodeRun s (m :: rest) = m.1 ++ s :: m.2 ++ (rest.map enc_msg_run).flatten
        simp [encodeRun])
      (by simp) (by simp) (by omega) hs2 hmlen
    rw [hF1, hR1]
    refine congrArg₂ List.cons rfl ?_
    match rest, hm with
    | [], _ => rfl
    | r :: rest', hm =>
      obtain ⟨hrv, _, _⟩ := hm r (by simp)
      have hFtick2 := update_tick_varint (m.1 ++ s :: m.2) r.1 (remFull s (r :: rest'))
        { data := encodeFull s (m :: r :: rest'), long_msg := [], tick := (0 + vval m.1) % 2 ^ 64,
          offset := m.1.length + 1 + m.2.length,
          length := (encodeFull s (m :: r :: rest')).length,
          message := s ||| tempOf m.2, temp := tempOf m.2, last_status := some s }
        (by
          show encodeFull s (m :: r :: rest') = (m.1 ++ s :: m.2) ++ r.1 ++ remFull s (r :: rest')
          simp [encodeFull, enc_msg_full, remFull])
        (by simp only [List.length_append, List.length_cons]; omega)
        (by simp) hrv
      have hRtick2 := update_tick_varint (m.1 ++ s :: m.2) r.1 (remRun (r :: rest'))
        { data := encodeRun s (m :: r :: rest'), long_msg := [], tick := (0 + vval m.1) % 2 ^ 64,
          offset := m.1.length + 1 + m.2.length,
          length := (encodeRun s (m :: r :: rest')).length,
          message := s ||| tempOf m.2, temp := tempOf m.2, last_status := some s }
        (by
          show encodeRun s (m :: r :: rest') = (m.1 ++ s :: m.2) ++ r.1 ++ remRun (r :: rest')
          simp [encodeRun, enc_msg_run, remRun])
        (by simp only [List.length_append, List.length_cons]; omega)
        (by simp) hrv
      simp only []
      rw [hFtick2, hRtick2]
      refine ((c6_loop (r :: rest') s _ _ ((m.1 ++ s :: m.2) ++ r.1)
        ((m.1 ++ s :: m.2) ++ r.1) hs1 hs2 (fun x hx => hm x (by simp [hx]))
        ?_ ?_ ?_ ?_ ?_ ?_ ?_ ?_).symm)
      · show encodeFull s (m :: r :: rest')
          = ((m.1 ++ s :: m.2) ++ r.1) ++ remFull s (r :: rest')
        simp [encodeFull, enc_msg_full, remFull]
      · show (m.1 ++ s :: m.2).length + r.1.length = ((m.1 ++ s :: m.2) ++ r.1).length
        simp
        omega
      · show (encodeFull s (m :: r :: rest')).length = (encodeFull s (m :: r :: rest')).length
        rfl
      · show encodeRun s (m :: r :: rest')
          = ((m.1 ++ s :: m.2) ++ r.1) ++ remRun (r :: rest')
        simp [encodeRun, enc_msg_run, remRun]
      · show (m.1 ++ s :: m.2).length + r.1.length = ((m.1 ++ s :: m.2) ++ r.1).length
        simp
        omega
      · show (encodeRun s (m :: r :: rest')).length = (encodeRun s (m :: r :: rest')).length
        rfl
      · rfl
      · rfl

/-- Witness for C6 at a concrete two-message note-on track: delta 0 then
delta 0xC0 (two-byte varint), statuses omitted in the running-status form. -/
theorem c6_running_status_round_trip_witness :
    (0x80 ≤ 0x90 ∧ 0x90 < 0xF0 ∧
      (∀ m ∈ ([([0x00], [0x3C, 0x64]), ([0x81, 0x40], [0x3E, 0x50])] :
          List (List Nat × List Nat)),
        IsVarint m.1 ∧ m.2.length = arity 0x90 ∧ ∀ b ∈ m.2, b < 128)) ∧
    decodeN ([([0x00], [0x3C, 0x64]), ([0x81, 0x40], [0x3E, 0x50])] :
        List (List Nat × List Nat)).length
      (mk_track (encodeRun 0x90 [([0x00], [0x3C, 0x64]), ([0x81, 0x40], [0x3E, 0x50])])) =
    decodeN ([([0x00], [0x3C, 0x64]), ([0x81, 0x40], [0x3E, 0x50])] :
        List (List Nat × List Nat)).length
      (mk_track (encodeFull 0x90 [([0x00], [0x3C, 0x64]), ([0x81, 0x40], [0x3E, 0x50])])) :=
  ⟨⟨by decide, by decide, by norm_num [IsVarint, arity]; decide⟩,
   c6_running_status_round_trip 0x90 [([0x00], [0x3C, 0x64]), ([0x81, 0x40], [0x3E, 0x50])]
     (by decide) (by decide) (by norm_num [IsVarint, arity]; decide)⟩

/-! ### C8: the batched player refines the unbatched one -/

/-- The `(data, track)` pairs passed to the sink callback, in order. -/
def sends : List OutAction → List (Nat × Nat)
  | [] => []
  | OutAction.send d t :: r => (d, t) :: sends r
  | OutAction.sleep _ :: r => sends r

/-- The sink calls determined by an event list alone: every non-tempo event in
order. -/
def sendsOf (evs : List Event) : List (Nat × Nat) :=
  evs.filterMap fun e => if e.is_tempo then none else some (e.data, e.track)

/-- Sink calls of an unpacked event list. -/
def sendsOfU (es : List UnpackedEvent) : List (Nat × Nat) :=
  es.filterMap fun e => if e.is_tempo then none else some (e.data, e.track)

/-- The producer's unpacking starting from index `n` (generalizes
`unpack_events`). -/
def unpackFrom (n : Nat) (evs : List Event) : List UnpackedEvent :=
  (List.enumFrom n evs).map fun p => ⟨p.1 % 2 ^ 32, p.2.data, p.2.track, p.2.is_tempo⟩

theorem sends_append (a b : List OutAction) : sends (a ++ b) = sends a ++ sends b := by
  induction a with
  | nil => rfl
  | cons x r ih => cases x <;> simp [sends, ih]

theorem sends_timing_step (clock : Nat → Int) (s : PlayState) (dt : Nat) :
    sends (timing_step clock s dt).2 = [] := by
  simp only [timing_step]
  split <;> split <;> rfl

theorem sends_proc_event (time_div : Nat) (s : PlayState) (e : Event) :
    sends (proc_event time_div s e).2 =
      if e.is_tempo then [] else [(e.data, e.track)] := by
  cases h : e.is_tempo <;> simp [proc_event, h, sends]

theorem sends_proc_event_batched (time_div : Nat) (s : PlayState) (e : UnpackedEvent) :
    sends (proc_event_batched time_div s e).2 =
      if e.is_tempo then [] else [(e.data, e.track)] := by
  cases h : e.is_tempo <;> simp [proc_event_batched, h, sends]

theorem sends_play_loop (clock : Nat → Int) (time_div : Nat) :
    ∀ (evs : List Event) (i : Nat) (ds : List (Nat × Nat)) (s : PlayState),
      sends (play_loop clock time_div evs i ds s) = sendsOf evs
  | [], _, _, _ => rfl
  | e :: rest, i, [], s => by
    simp only [play_loop, sends_append, sends_proc_event,
      sends_play_loop clock time_div rest (i + 1) [] _, sendsOf, List.filterMap_cons]
    split <;> simp [sendsOf]
  | e :: rest, i, (idx, dt) :: drest, s => by
    by_cases h : idx = i % 2 ^ 32
    · simp only [play_loop, if_pos h, sends_append, sends_proc_event, sends_timing_step,
        sends_play_loop clock time_div rest (i + 1) drest _, sendsOf, List.filterMap_cons]
      split <;> simp [sendsOf]
    · simp only [play_loop, if_neg h, sends_append, sends_proc_event,
        sends_play_loop clock time_div rest (i + 1) ((idx, dt) :: drest) _,
        sendsOf, List.filterMap_cons]
      split <;> simp [sendsOf]

theorem sends_consume_deltas (clock : Nat → Int) (idx : Nat) :
    ∀ (ds : List (Nat × Nat)) (s : PlayState),
      sends (consume_deltas clock idx ds s).1 = []
  | [], _ => rfl
  | (didx, dt) :: drest, s => by
    simp only [consume_deltas]
    split
    · rfl
    · simp [sends_append, sends_timing_step,
        sends_consume_deltas clock idx drest _]

theorem sends_run_batch (clock : Nat → Int) (time_div : Nat) :
    ∀ (es : List UnpackedEvent) (ds : List (Nat × Nat)) (s : PlayState),
      sends (run_batch clock time_div es ds s).1 = sendsOfU es
  | [], _, _ => rfl
  | e :: es, ds, s => by
    simp only [run_batch, sends_append, sends_proc_event_batched, sends_consume_deltas,
      sends_run_batch clock time_div es _ _, sendsOfU, List.filterMap_cons]
    split <;> simp [sendsOfU]

theorem sends_run_batches (clock : Nat → Int) (time_div : Nat) :
    ∀ (bs : List (List UnpackedEvent)) (ds : List (Nat × Nat)) (s : PlayState),
      sends (run_batches clock time_div bs ds s) = sendsOfU bs.flatten
  | [], _, _ => rfl
  | b :: bs, ds, s => by
    simp only [run_batches, sends_append, sends_run_batch,
      sends_run_batches clock time_div bs _ _, List.flatten_cons, sendsOfU,
      List.filterMap_append]

theorem unpackFrom_nil (n : Nat) : unpackFrom n [] = [] := rfl

theorem unpackFrom_cons (n : Nat) (e : Event) (rest : List Event) :
    unpackFrom n (e :: rest) =
      ⟨n % 2 ^ 32, e.data, e.track, e.is_tempo⟩ :: unpackFrom (n + 1) rest := rfl

theorem unpack_events_eq (evs : List Event) : unpack_events evs = unpackFrom 0 evs := rfl

theorem sendsOfU_unpackFrom : ∀ (n : Nat) (evs : List Event),
    sendsOfU (unpackFrom n evs) = sendsOf evs
  | _, [] => rfl
  | n, e :: rest => by
    rw [unpackFrom_cons]
    simp only [sendsOfU, sendsOf, List.filterMap_cons]
    have := sendsOfU_unpackFrom (n + 1) rest
    split <;> simp_all [sendsOfU, sendsOf]

theorem run_batch_append (clock : Nat → Int) (time_div : Nat)
    (l1 l2 : List UnpackedEvent) :
    ∀ (ds : List (Nat × Nat)) (s : PlayState),
      run_batch clock time_div (l1 ++ l2) ds s =
        ((run_batch clock time_div l1 ds s).1 ++
            (run_batch clock time_div l2 (run_batch clock time_div l1 ds s).2.1
              (run_batch clock time_div l1 ds s).2.2).1,
          (run_batch clock time_div l2 (run_batch clock time_div l1 ds s).2.1
            (run_batch clock time_div l1 ds s).2.2).2) := by
  induction l1 with
  | nil => intro ds s; simp [run_batch]
  | cons e es ih =>
    intro ds s
    simp only [List.cons_append, run_batch, List.append_eq, ih, List.append_assoc]

theorem run_batches_eq_run_batch (clock : Nat → Int) (time_div : Nat) :
    ∀ (bs : List (List UnpackedEvent)) (ds : List (Nat × Nat)) (s : PlayState),
      run_batches clock time_div bs ds s =
        (run_batch clock time_div bs.flatten ds s).1
  | [], _, _ => rfl
  | b :: bs, ds, s => by
    simp only [run_batches, List.flatten_cons,
      run_batch_append clock time_div b bs.flatten ds s,
      run_batches_eq_run_batch clock time_div bs _ _]

theorem chunks_of_go_flatten : ∀ (fuel : Nat) (l : List UnpackedEvent),
    l.length ≤ fuel → (chunks_of_go fuel l).flatten = l
  | 0, l, h => by
    cases l with
    | nil => rfl
    | cons e rest => simp at h
  | fuel + 1, [], _ => rfl
  | fuel + 1, e :: rest, h => by
    simp only [chunks_of_go, List.flatten_cons]
    rw [chunks_of_go_flatten fuel ((e :: rest).drop 65536)
      (by simp only [List.length_drop, List.length_cons] at *; omega)]
    exact List.take_append_drop 65536 (e :: rest)

theorem chunks_of_flatten (l : List UnpackedEvent) : (chunks_of l).flatten = l :=
  chunks_of_go_flatten l.length l le_rfl

theorem proc_eq_proc_batched (time_div : Nat) (s : PlayState) (e : Event) (n : Nat) :
    proc_event_batched time_div s ⟨n % 2 ^ 32, e.data, e.track, e.is_tempo⟩ =
      proc_event time_div s e := by
  cases h : e.is_tempo <;> simp [proc_event, proc_event_batched, h]

theorem consume_deltas_stop (clock : Nat → Int) (idx : Nat) (ds : List (Nat × Nat))
    (s : PlayState) (h : ∀ p ∈ ds.head?, p.1 ≠ idx) :
    consume_deltas clock idx ds s = ([], ds, s) := by
  cases ds with
  | nil => rfl
  | cons p drest =>
    obtain ⟨didx, dt⟩ := p
    have hne : didx ≠ idx := h (didx, dt) rfl
    simp [consume_deltas, hne]

theorem run_batch_eq_play_loop (clock : Nat → Int) (time_div : Nat) :
    ∀ (evs : List Event) (i : Nat) (ds : List (Nat × Nat)) (s : PlayState),
      List.Chain' (fun a b : Nat × Nat => a.1 ≠ b.1) ds →
      (run_batch clock time_div (unpackFrom i evs) ds s).1 =
        play_loop clock time_div evs i ds s
  | [], _, _, _, _ => rfl
  | e :: rest, i, [], s, _ => by
    rw [unpackFrom_cons]
    simp only [run_batch, consume_deltas, proc_eq_proc_batched, play_loop,
      run_batch_eq_play_loop clock time_div rest (i + 1) [] _ (List.chain'_nil),
      List.nil_append, List.append_nil]
  | e :: rest, i, (didx, dt) :: drest, s, hch => by
    rw [unpackFrom_cons]
    have hch2 := (List.chain'_cons'.mp hch).2
    by_cases hidx : didx = i % 2 ^ 32
    · have hstop : ∀ p ∈ drest.head?, p.1 ≠ i % 2 ^ 32 := by
        intro p hp
        have := (List.chain'_cons'.mp hch).1 p hp
        simp only at this
        omega
      simp only [run_batch, proc_eq_proc_batched, play_loop, if_pos hidx]
      rw [show (consume_deltas clock
            (⟨i % 2 ^ 32, e.data, e.track, e.is_tempo⟩ : UnpackedEvent).idx
            ((didx, dt) :: drest) (proc_event time_div s e).1) =
          ((timing_step clock (proc_event time_div s e).1 dt).2, drest,
            (timing_step clock (proc_event time_div s e).1 dt).1) from by
        simp only [consume_deltas]
        rw [if_neg (by simpa using hidx),
          consume_deltas_stop clock
            (⟨i % 2 ^ 32, e.data, e.track, e.is_tempo⟩ : UnpackedEvent).idx drest
            (timing_step clock (proc_event time_div s e).1 dt).1 hstop]
        simp]
      simp only [run_batch_eq_play_loop clock time_div rest (i + 1) drest
          (timing_step clock (proc_event time_div s e).1 dt).1 hch2,
        List.append_assoc]
    · simp only [run_batch, proc_eq_proc_batched, play_loop, if_neg hidx]
      rw [consume_deltas_stop clock
        (⟨i % 2 ^ 32, e.data, e.track, e.is_tempo⟩ : UnpackedEvent).idx
        ((didx, dt) :: drest) (proc_event time_div s e).1
        (by intro p hp; simp at hp; subst hp; simpa using hidx)]
      simp only [List.nil_append, List.append_nil,
        run_batch_eq_play_loop clock time_div rest (i + 1) ((didx, dt) :: drest)
          (proc_event time_div s e).1 hch]

/-- C8: for every parsed MIDI, clock model and time division, the batched
player calls the sink with exactly the same `(data, track)` sequence as the
unbatched player; and whenever no two consecutive delta-table entries share an
event index (true of every table whose indices are strictly increasing, as the
parser produces for streams of at most `2^32` events), the whole observable
trace — sink calls and positive sleeps alike — is identical. -/
theorem c8_batched_refines_unbatched (clock : Nat → Int) (pm : ParsedMidi)
    (time_div : Nat) :
    sends (play_parsed_events_batched clock pm time_div) =
      sends (play_parsed_events clock pm time_div) ∧
    (List.Chain' (fun a b : Nat × Nat => a.1 ≠ b.1) pm.deltas →
      play_parsed_events_batched clock pm time_div =
        play_parsed_events clock pm time_div) := by
  constructor
  · by_cases h : pm.events = []
    · simp [play_parsed_events_batched, play_parsed_events, h]
    · rw [play_parsed_events_batched, play_parsed_events, if_neg h, if_neg h,
        sends_run_batches, chunks_of_flatten, unpack_events_eq,
        sendsOfU_unpackFrom, sends_play_loop]
  · intro hch
    by_cases h : pm.events = []
    · simp [play_parsed_events_batched, play_parsed_events, h]
    · rw [play_parsed_events_batched, play_parsed_events, if_neg h, if_neg h,
        run_batches_eq_run_batch, chunks_of_flatten, unpack_events_eq,
        run_batch_eq_play_loop clock time_div pm.events 0 pm.deltas _ hch]

/-- Concrete input refuting the universal form of C8: a single tempo event
with a delta table whose two entries both carry event index 0 — the shape the
parser itself produces once `(i-1) as u32` wraps past `2^32` events. -/
def c8cpm : ParsedMidi :=
  { events := [⟨500000, 0, true⟩], deltas := [(0, 100), (0, 100)],
    total_ticks := 200, total_duration_ns := 100000000, note_count := 0 }

set_option maxRecDepth 8192 in
/-- C8, counterexample: the batched player is NOT trace-equivalent to the
unbatched one on every `ParsedMidi`.  On `c8cpm` (tempo 500000, division 500,
a constant clock) the unbatched loop consumes at most one delta entry per
event (player.rs 262-287 breaks after a match) and emits one delay call, while
the batched consumer's `while` loop (player.rs 403-429) drains both co-indexed
entries and emits two delay calls — the delta bookkeeping differs, refuting
"changes throughput only". -/
theorem c8_counterexample :
    play_parsed_events_batched (fun _ => 0) c8cpm 500 =
      [OutAction.sleep 1000000, OutAction.sleep 1000000] ∧
    play_parsed_events (fun _ => 0) c8cpm 500 = [OutAction.sleep 1000000] := by
  constructor
  · have hne : c8cpm.events ≠ [] := by simp [c8cpm]
    rw [play_parsed_events_batched, if_neg hne, run_batches_eq_run_batch,
      chunks_of_flatten, unpack_events_eq]
    norm_num [c8cpm, unpackFrom_cons, unpackFrom_nil, run_batch, consume_deltas,
      proc_event_batched, timing_step, wrap64, sat_trunc_i64]
  · have hne : c8cpm.events ≠ [] := by simp [c8cpm]
    rw [play_parsed_events, if_neg hne]
    norm_num [c8cpm, play_loop, proc_event, timing_step, wrap64, sat_trunc_i64]

/-- Concrete input for the C8 witness: a tempo change, two notes, one delta
entry after the tempo change. -/
def c8pm : ParsedMidi :=
  { events := [⟨500000, 0, true⟩, ⟨0x643C90, 0, false⟩, ⟨0x503E90, 1, false⟩],
    deltas := [(0, 480)], total_ticks := 480, total_duration_ns := 500000000,
    note_count := 2 }

/-- A strictly increasing deterministic clock for the C8 witness. -/
def c8clock (n : Nat) : Int := 100 * n

/-- Witness for C8 at a concrete parsed MIDI and clock: the delta table has no
consecutive duplicate indices and the batched trace equals the unbatched one. -/
theorem c8_batched_refines_unbatched_witness :
    List.Chain' (fun a b : Nat × Nat => a.1 ≠ b.1) c8pm.deltas ∧
    play_parsed_events_batched c8clock c8pm 480 =
      play_parsed_events c8clock c8pm 480 :=
  ⟨List.chain'_singleton _,
   (c8_batched_refines_unbatched c8clock c8pm 480).2 (List.chain'_singleton _)⟩

end MidiVerify
